import Mathlib

/-!
Verification of the `new_api` data-quality service.

The development shallowly embeds the Python source (`org_1_2907.py`,
`api_app.py`):

* Text is modelled as `List Char` (`Str`).  `re.sub(r'\b' + re.escape(p) +
  r'\b', repl, t, flags=re.IGNORECASE)` is modelled by `wwSub` /`wwSubE`:
  a left-to-right scan over the original text replacing non-overlapping
  whole-word, ASCII-case-insensitive occurrences of the literal pattern.
  CPython processes the replacement template eagerly and raises `re.error`
  on an invalid escape (e.g. `\d`) even before matching; `processTemplate`
  models this with `Except`.  Unicode case folding and non-ASCII word
  characters are outside the modelled alphabet.
* Python dicts are modelled as insertion-ordered association lists.
* The SQLite data store is modelled per field: a column is a list of
  optional TEXT values; the SQL aggregates used by the checker
  (COUNT, DISTINCT, GROUP BY/HAVING, LIMIT) are computed purely.
* Python `float` arithmetic in the outlier heuristics is modelled with
  exact rationals; non-finite parses (`inf`, `nan`) are mapped to 0.
  No theorem below depends on rounding or on non-finite values.
-/

abbrev Str := List Char

/-- ASCII word character, as in `re`'s `\w`/`\b` for ASCII text. -/
def isWordChar (c : Char) : Bool := c.isAlpha || c.isDigit || c == '_'

/-- ASCII lowercasing of a text, modelling `re.IGNORECASE` comparison. -/
def lowerStr (s : Str) : Str := s.map Char.toLower

/-- Case-insensitive prefix test. -/
def ciPrefix (p t : Str) : Bool := (lowerStr p).isPrefixOf (lowerStr t)

/-- Wordness of the last character of the pattern.  For a case-insensitive
match the matched text characters have the same wordness as the pattern's,
so this is the wordness of the last matched character. -/
def patEndWord (p : Str) : Bool := isWordChar (p.getLastD ' ')

/-- `\b` at the end of a match of `p` starting at the head of `t`:
the wordness of the last matched character must differ from the wordness
of the following character (end of string counts as non-word). -/
def boundaryAfter (p t : Str) : Bool :=
  match t.drop p.length with
  | [] => patEndWord p
  | d :: _ => patEndWord p != isWordChar d

/-- The match condition of the scanner at the head of `t`: nonempty
pattern, case-insensitive prefix match, `\b` on both sides.  `prev` is the
wordness of the character just before the current position (`false` at the
start of the string), so the leading `\b` holds iff `prev` differs from
the wordness of the current character. -/
def matchHere (p : Str) (prev : Bool) (c : Char) (rest : Str) : Prop :=
  0 < p.length ∧ ciPrefix p (c :: rest) = true ∧
    prev ≠ isWordChar c ∧ boundaryAfter p (c :: rest) = true

instance (p : Str) (prev : Bool) (c : Char) (rest : Str) :
    Decidable (matchHere p prev c rest) := by
  unfold matchHere; infer_instance

/-- The scanner behind `re.sub` on the original text, recursing on a fuel
bound so that concrete calls reduce in the kernel.  Each step consumes at
least one character, so fuel `t.length` is always enough. -/
def wwSubFuel (p lit : Str) : Nat → Bool → Str → Str
  | 0, _, t => t
  | _ + 1, _, [] => []
  | fuel + 1, prev, c :: rest =>
    if matchHere p prev c rest then
      lit ++ wwSubFuel p lit fuel (patEndWord p) ((c :: rest).drop p.length)
    else
      c :: wwSubFuel p lit fuel (isWordChar c) rest

/-- Whole-word case-insensitive substitution of the literal pattern `p`
by the literal replacement `lit` over `t`. -/
def wwSub (p lit t : Str) : Str := wwSubFuel p lit t.length false t

theorem wwSubFuel_irrel (p lit : Str) :
    ∀ f f' prev (t : Str), t.length ≤ f → t.length ≤ f' →
      wwSubFuel p lit f prev t = wwSubFuel p lit f' prev t := by
  intro f
  induction f with
  | zero =>
    intro f' prev t hf _
    have : t = [] := List.eq_nil_of_length_eq_zero (Nat.le_zero.mp hf)
    subst this
    cases f' <;> rfl
  | succ f ih =>
    intro f' prev t hf hf'
    cases t with
    | nil => cases f' <;> rfl
    | cons c rest =>
      cases f' with
      | zero => simp at hf'
      | succ f' =>
        simp only [wwSubFuel]
        by_cases hm : matchHere p prev c rest
        · have hp := hm.1
          simp only [hm, if_pos]
          congr 1
          apply ih <;>
            (simp only [List.length_drop, List.length_cons] at hf hf' ⊢; omega)
        · simp only [hm, if_neg, not_false_iff]
          congr 1
          apply ih <;> (simp only [List.length_cons] at hf hf' ⊢; omega)

/-- Unfolding equation for `wwSub` on a cons cell, fuel eliminated. -/
theorem wwSubGoEq (p lit : Str) (prev : Bool) (c : Char) (rest : Str) :
    wwSubFuel p lit (rest.length + 1) prev (c :: rest) =
      if matchHere p prev c rest then
        lit ++ wwSubFuel p lit ((c :: rest).drop p.length).length (patEndWord p)
          ((c :: rest).drop p.length)
      else
        c :: wwSubFuel p lit rest.length (isWordChar c) rest := by
  simp only [wwSubFuel]
  by_cases hm : matchHere p prev c rest
  · have hp := hm.1
    simp only [hm, if_pos]
    congr 1
    apply wwSubFuel_irrel
    · simp only [List.length_drop, List.length_cons]; omega
    · exact Nat.le_refl _
  · simp only [hm, if_neg, not_false_iff]

/-- Valid replacement-template escapes of CPython `re` (`\\`, `\n`, …).
Group references are not modelled: the patterns produced by the masker
contain no capture groups, so numbered references raise in CPython too. -/
def templEscape (c : Char) : Option Char :=
  if c == '\\' then some '\\'
  else if c == 'n' then some '\n'
  else if c == 't' then some '\t'
  else if c == 'r' then some '\r'
  else if c == 'a' then some (Char.ofNat 7)
  else if c == 'b' then some (Char.ofNat 8)
  else if c == 'f' then some (Char.ofNat 12)
  else if c == 'v' then some (Char.ofNat 11)
  else none

/-- CPython compiles the replacement template of `re.sub` eagerly; an
invalid escape such as `\d` raises `re.error` regardless of matches. -/
def processTemplate : Str → Except Unit Str
  | [] => .ok []
  | c :: rest =>
    if c = '\\' then
      match rest with
      | [] => .error ()
      | e :: rest' =>
        match templEscape e with
        | some ch => (processTemplate rest').map (fun s => ch :: s)
        | none => .error ()
    else
      (processTemplate rest).map (fun s => c :: s)

/-- `re.sub` call: template processing then substitution; template errors
propagate as exceptions. -/
def wwSubE (p repl t : Str) : Except Unit Str :=
  match processTemplate repl with
  | .ok lit => .ok (wwSub p lit t)
  | .error e => .error e

/-- Backslash-free replacements are literal. -/
theorem processTemplate_no_backslash (r : Str) (h : '\\' ∉ r) :
    processTemplate r = .ok r := by
  induction r with
  | nil => rfl
  | cons c rest ih =>
    have hc : ¬ c = '\\' := fun hc => h (hc ▸ List.mem_cons_self c rest)
    have hrest : '\\' ∉ rest := fun hm => h (List.mem_cons_of_mem _ hm)
    rw [processTemplate.eq_def]
    simp [hc, ih hrest, Except.map]

theorem wwSubE_no_backslash (p r t : Str) (h : '\\' ∉ r) :
    wwSubE p r t = .ok (wwSub p r t) := by
  unfold wwSubE
  rw [processTemplate_no_backslash r h]

/-- Decimal rendering of a natural number, as Python `str`/f-strings do;
fuel-based so that concrete calls reduce in the kernel. -/
def natDecimalAux : Nat → Nat → Str
  | 0, _ => []
  | fuel + 1, n =>
    if n < 10 then [Nat.digitChar n]
    else natDecimalAux fuel (n / 10) ++ [Nat.digitChar (n % 10)]

def natDecimal (n : Nat) : Str := natDecimalAux (n + 1) n

theorem natDecimalAux_irrel :
    ∀ f f' n, n < f → n < f' → natDecimalAux f n = natDecimalAux f' n := by
  intro f
  induction f with
  | zero => intro f' n hf; omega
  | succ f ih =>
    intro f' n hf hf'
    cases f' with
    | zero => omega
    | succ f' =>
      simp only [natDecimalAux]
      by_cases h : n < 10
      · simp [h]
      · simp only [h, if_neg, not_false_iff]
        have hd : n / 10 < n := Nat.div_lt_self (by omega) (by omega)
        rw [ih f' (n / 10) (by omega) (by omega)]

theorem natDecimal_unfold (n : Nat) :
    natDecimal n =
      if n < 10 then [Nat.digitChar n]
      else natDecimal (n / 10) ++ [Nat.digitChar (n % 10)] := by
  show natDecimalAux (n + 1) n = _
  simp only [natDecimalAux]
  by_cases h : n < 10
  · simp [h]
  · simp only [h, if_neg, not_false_iff]
    have hd : n / 10 < n := Nat.div_lt_self (by omega) (by omega)
    rw [natDecimalAux_irrel n (n / 10 + 1) (n / 10) (by omega) (by omega)]
    rfl

theorem digitChar_toNat (m : Nat) (h : m < 10) :
    (Nat.digitChar m).toNat = 48 + m := by
  interval_cases m <;> rfl

/-- Decimal evaluation, left fold over digit characters. -/
def decVal (s : Str) : Nat := s.foldl (fun a c => a * 10 + (c.toNat - 48)) 0

theorem decVal_aux (s : Str) (a : Nat) :
    s.foldl (fun a c => a * 10 + (c.toNat - 48)) a
      = a * 10 ^ s.length + decVal s := by
  induction s generalizing a with
  | nil => simp [decVal]
  | cons c rest ih =>
    simp only [List.foldl_cons, List.length_cons, decVal] at *
    rw [ih, ih (0 * 10 + (c.toNat - 48))]
    ring

theorem decVal_natDecimal (n : Nat) : decVal (natDecimal n) = n := by
  induction n using Nat.strong_induction_on with
  | _ n ih =>
    rw [natDecimal_unfold]
    by_cases h : n < 10
    · rw [if_pos h]
      simp [decVal, digitChar_toNat n h]
    · rw [if_neg h]
      simp only [decVal, List.foldl_append, List.foldl_cons, List.foldl_nil]
      have hrec := ih (n / 10) (Nat.div_lt_self (by omega) (by omega))
      unfold decVal at hrec
      rw [hrec, digitChar_toNat _ (Nat.mod_lt _ (by omega))]
      omega

theorem natDecimal_injective : Function.Injective natDecimal := by
  intro a b h
  have := decVal_natDecimal a
  rw [h, decVal_natDecimal] at this
  omega

theorem digitChar_range (m : Nat) (h : m < 10) :
    '0' ≤ Nat.digitChar m ∧ Nat.digitChar m ≤ '9' := by
  interval_cases m <;> exact ⟨by decide, by decide⟩

theorem natDecimal_digits (n : Nat) :
    ∀ c ∈ natDecimal n, '0' ≤ c ∧ c ≤ '9' := by
  induction n using Nat.strong_induction_on with
  | _ n ih =>
    rw [natDecimal_unfold]
    by_cases h : n < 10
    · rw [if_pos h]
      intro c hc
      simp only [List.mem_singleton] at hc
      subst hc
      exact digitChar_range n h
    · rw [if_neg h]
      intro c hc
      rcases List.mem_append.mp hc with hc | hc
      · exact ih (n / 10) (Nat.div_lt_self (by omega) (by omega)) c hc
      · simp only [List.mem_singleton] at hc
        subst hc
        exact digitChar_range _ (Nat.mod_lt _ (by omega))

/-! ## Python dict model (insertion-ordered association lists) -/

/-- `d.get(k)` / `k in d` lookup: first (unique) binding. -/
def dFind? {β : Type} (d : List (Str × β)) (k : Str) : Option β :=
  match d with
  | [] => none
  | (k', v) :: rest => if k' = k then some v else dFind? rest k

/-- `k in d`. -/
def dMem {β : Type} (d : List (Str × β)) (k : Str) : Bool :=
  (dFind? d k).isSome

/-- `d[k] = v`: overwrite in place if present, else append (Python dicts
preserve insertion order and keep the original position on overwrite). -/
def dSet {β : Type} (d : List (Str × β)) (k : Str) (v : β) : List (Str × β) :=
  match d with
  | [] => [(k, v)]
  | (k', v') :: rest =>
    if k' = k then (k, v) :: rest else (k', v') :: dSet rest k v

/-! ## DataMaskingManager (org_1_2907.py lines 24-135) -/

structure MaskState where
  table_mapping : List (Str × Str)
  column_mapping : List (Str × List (Str × Str))
  reverse_table_mapping : List (Str × Str)
  reverse_column_mapping : List (Str × List (Str × Str))
deriving DecidableEq

def initMaskState : MaskState := ⟨[], [], [], []⟩

/-- `f"table_{n}"`. -/
def tableTok (n : Nat) : Str := "table_".toList ++ natDecimal n

/-- `f"col_{n}"`. -/
def colTok (n : Nat) : Str := "col_".toList ++ natDecimal n

/-- `DataMaskingManager.mask_table_name` (lines 31-37). -/
def mask_table_name (s : MaskState) (original_name : Str) : Str × MaskState :=
  match dFind? s.table_mapping original_name with
  | some tok => (tok, s)
  | none =>
    let masked_name := tableTok (s.table_mapping.length + 1)
    (masked_name,
      { s with
        table_mapping := s.table_mapping ++ [(original_name, masked_name)],
        reverse_table_mapping :=
          s.reverse_table_mapping ++ [(masked_name, original_name)] })

/-- `DataMaskingManager.mask_column_name` (lines 39-50). -/
def mask_column_name (s : MaskState) (table_name original_col : Str) :
    Str × MaskState :=
  let s :=
    if dMem s.column_mapping table_name then s
    else
      { s with
        column_mapping := s.column_mapping ++ [(table_name, [])],
        reverse_column_mapping := s.reverse_column_mapping ++ [(table_name, [])] }
  let inner := (dFind? s.column_mapping table_name).getD []
  match dFind? inner original_col with
  | some tok => (tok, s)
  | none =>
    let masked_col := colTok (inner.length + 1)
    let rinner := (dFind? s.reverse_column_mapping table_name).getD []
    (masked_col,
      { s with
        column_mapping :=
          dSet s.column_mapping table_name (inner ++ [(original_col, masked_col)]),
        reverse_column_mapping :=
          dSet s.reverse_column_mapping table_name
            (rinner ++ [(masked_col, original_col)]) })

/-- Sequentially apply `re.sub` for each `(pattern, replacement)` pair,
propagating template errors as exceptions. -/
def subAllE (pairs : List (Str × Str)) (t : Str) : Except Unit Str :=
  pairs.foldlM (fun acc pr => wwSubE pr.1 pr.2 acc) t

/-- `DataMaskingManager.mask_user_query` (lines 85-103): iterate the table
mapping; for each table replace its original name by its token, then each
of its columns' original names by their tokens.  `schema_info` is accepted
and unused, as in the source. -/
def mask_user_query (s : MaskState) (user_query : Str) (schema_info : Str) :
    Except Unit Str :=
  let _ := schema_info
  s.table_mapping.foldlM
    (fun acc pr => do
      let acc ← wwSubE pr.1 pr.2 acc
      match dFind? s.column_mapping pr.1 with
      | some cols => subAllE cols acc
      | none => pure acc)
    user_query

/-- The second, effective definition of
`DataMaskingManager.unmask_sql_query` (lines 119-135): it shadows the
first definition at class-body execution and has no `try`/`except`, so
`re.error` raised while substituting propagates to the caller. -/
def unmask_sql_query (s : MaskState) (masked_query : Str) : Except Unit Str := do
  let q ← subAllE s.reverse_table_mapping masked_query
  s.reverse_column_mapping.foldlM (fun acc pr => subAllE pr.2 acc) q

/-- The first definition of `unmask_sql_query` (lines 62-84), shadowed by
the second: wrapped in `try`/`except`, returning the input unchanged on
any error.  Its column loop iterates the forward `column_mapping`,
substituting each `masked_col` back to its `original_col`. -/
def unmask_sql_query_shadowed (s : MaskState) (masked_query : Str) : Str :=
  let r : Except Unit Str := do
    let q ← subAllE s.reverse_table_mapping masked_query
    s.column_mapping.foldlM
      (fun acc pr => pr.2.foldlM (fun acc2 cp => wwSubE cp.2 cp.1 acc2) acc) q
  match r with
  | .ok out => out
  | .error _ => masked_query

/-- Modelled from Python class-body semantics: executing a class body
binds each `def` in order, a later `def` with the same name rebinding it;
attribute lookup returns the last binding.  The pairs are the method
names of `DataMaskingManager` with the line each `def` starts on. -/
def classEffectiveDef (defs : List (String × Nat)) (name : String) : Option Nat :=
  defs.foldl (fun acc pr => if pr.1 = name then some pr.2 else acc) none

def dataMaskingManagerDefs : List (String × Nat) :=
  [("__init__", 25), ("mask_table_name", 31), ("mask_column_name", 39),
   ("unmask_table_name", 52), ("unmask_column_name", 56),
   ("unmask_sql_query", 62), ("mask_user_query", 85),
   ("mask_schema_info", 105), ("unmask_sql_query", 119)]

/-- A reachable masker state whose stored original table name contains a
backslash escape that is invalid in an `re.sub` replacement template. -/
def c1State : MaskState :=
  (mask_table_name initMaskState "foo\\d".toList).2

/-! ## Dictionary lemmas -/

theorem dFind?_append {β : Type} (d₁ d₂ : List (Str × β)) (k : Str) :
    dFind? (d₁ ++ d₂) k =
      match dFind? d₁ k with
      | some v => some v
      | none => dFind? d₂ k := by
  induction d₁ with
  | nil => simp [dFind?]
  | cons kv rest ih =>
    obtain ⟨k', v⟩ := kv
    by_cases h : k' = k
    · simp [dFind?, h]
    · simp [dFind?, h, ih]

theorem dFind?_dSet_same {β : Type} (d : List (Str × β)) (k : Str) (v : β) :
    dFind? (dSet d k v) k = some v := by
  induction d with
  | nil => simp [dSet, dFind?]
  | cons kv rest ih =>
    obtain ⟨k', v'⟩ := kv
    by_cases h : k' = k
    · simp [dSet, h, dFind?]
    · simp [dSet, h, dFind?, ih]

theorem dFind?_dSet_other {β : Type} (d : List (Str × β)) (k k' : Str) (v : β)
    (h : k ≠ k') : dFind? (dSet d k v) k' = dFind? d k' := by
  induction d with
  | nil => simp [dSet, dFind?, h]
  | cons kv rest ih =>
    obtain ⟨k₀, v₀⟩ := kv
    by_cases h₀ : k₀ = k
    · subst h₀
      simp [dSet, dFind?, h, ih]
    · simp [dSet, h₀, dFind?, ih]

theorem dSet_self {β : Type} (d : List (Str × β)) (k : Str) (v : β)
    (h : dFind? d k = some v) : dSet d k v = d := by
  induction d with
  | nil => simp [dFind?] at h
  | cons kv rest ih =>
    obtain ⟨k', v'⟩ := kv
    by_cases hk : k' = k
    · subst hk
      simp [dFind?] at h
      simp [dSet, h]
    · simp [dFind?, hk] at h
      simp [dSet, hk, ih h]

theorem dSet_dSet {β : Type} (d : List (Str × β)) (k : Str) (v v' : β) :
    dSet (dSet d k v) k v' = dSet d k v' := by
  induction d with
  | nil => simp [dSet]
  | cons kv rest ih =>
    obtain ⟨k₀, v₀⟩ := kv
    by_cases h₀ : k₀ = k
    · simp [dSet, h₀]
    · simp [dSet, h₀, ih]

/-- Lookup in an enumerated token map at the `i`-th key, for `Nodup` keys. -/
theorem dFind?_enumFrom (f : Nat → Str) :
    ∀ (names : List Str) (k i : Nat) (hi : i < names.length), names.Nodup →
      dFind? ((names.enumFrom k).map fun pr => (pr.2, f pr.1))
          (names.get ⟨i, hi⟩) = some (f (k + i)) := by
  intro names
  induction names with
  | nil => intro k i hi _; simp at hi
  | cons n rest ih =>
    intro k i hi hnd
    rcases List.nodup_cons.mp hnd with ⟨hn, hrest⟩
    cases i with
    | zero => simp [List.enumFrom, dFind?]
    | succ j =>
      have hj : j < rest.length := by simpa using hi
      have hne : ¬ n = rest.get ⟨j, hj⟩ := fun he => hn (he ▸ rest.get_mem _ _)
      simp only [List.enumFrom, List.map_cons, List.get_cons_succ]
      rw [dFind?]
      simp only [hne, if_neg, not_false_iff]
      rw [ih (k + 1) j hj hrest]
      have harith : k + 1 + j = k + (j + 1) := by omega
      rw [harith]

/-! ## State-building folds (SQLGenerator.get_database_schema flow) -/

/-- Mask a sequence of table names in order. -/
def maskTables (s : MaskState) (names : List Str) : MaskState :=
  names.foldl (fun st n => (mask_table_name st n).2) s

/-- Mask a sequence of column names of one table in order. -/
def maskColumns (s : MaskState) (t : Str) (cols : List Str) : MaskState :=
  cols.foldl (fun st c => (mask_column_name st t c).2) s

theorem maskTables_spec :
    ∀ (names : List Str) (s : MaskState),
      (∀ n ∈ names, dFind? s.table_mapping n = none) → names.Nodup →
      (maskTables s names).table_mapping
          = s.table_mapping ++ ((names.enumFrom (s.table_mapping.length + 1)).map
              fun pr => (pr.2, tableTok pr.1))
        ∧ (maskTables s names).reverse_table_mapping
          = s.reverse_table_mapping ++ ((names.enumFrom (s.table_mapping.length + 1)).map
              fun pr => (tableTok pr.1, pr.2))
        ∧ (maskTables s names).column_mapping = s.column_mapping
        ∧ (maskTables s names).reverse_column_mapping = s.reverse_column_mapping := by
  intro names
  induction names with
  | nil => intro s _ _; simp [maskTables]
  | cons n rest ih =>
    intro s hfresh hnd
    rcases List.nodup_cons.mp hnd with ⟨hn, hrest⟩
    have hfn : dFind? s.table_mapping n = none := hfresh n (List.mem_cons_self _ _)
    have hstep : maskTables s (n :: rest)
        = maskTables ({ s with
            table_mapping := s.table_mapping
              ++ [(n, tableTok (s.table_mapping.length + 1))],
            reverse_table_mapping := s.reverse_table_mapping
              ++ [(tableTok (s.table_mapping.length + 1), n)] }) rest := by
      simp only [maskTables, List.foldl_cons]
      rw [mask_table_name, hfn]
    set s' : MaskState :=
      { s with
        table_mapping := s.table_mapping
          ++ [(n, tableTok (s.table_mapping.length + 1))],
        reverse_table_mapping := s.reverse_table_mapping
          ++ [(tableTok (s.table_mapping.length + 1), n)] } with hs'
    have hfresh' : ∀ m ∈ rest, dFind? s'.table_mapping m = none := by
      intro m hm
      rw [hs']
      simp only []
      rw [dFind?_append, hfresh m (List.mem_cons_of_mem _ hm)]
      have hne : ¬ n = m := fun he => hn (he ▸ hm)
      simp [dFind?, hne]
    obtain ⟨h1, h2, h3, h4⟩ := ih s' hfresh' hrest
    rw [hstep]
    refine ⟨?_, ?_, h3, h4⟩
    · rw [h1, hs']
      simp [List.enumFrom, List.append_assoc]
    · rw [h2, hs']
      simp [List.enumFrom, List.append_assoc]

theorem dSet_append_fresh {β : Type} (d : List (Str × β)) (t : Str) (w v : β)
    (h : dFind? d t = none) : dSet (d ++ [(t, w)]) t v = d ++ [(t, v)] := by
  induction d with
  | nil => simp [dSet]
  | cons kv rest ih =>
    obtain ⟨k', v'⟩ := kv
    by_cases hk : k' = t
    · rw [dFind?] at h
      simp [hk] at h
    · rw [dFind?] at h
      simp only [hk, if_neg, not_false_iff] at h
      simp [dSet, hk, ih h]

theorem mask_column_name_found (s : MaskState) (t c tok : Str)
    (inner : List (Str × Str)) (h1 : dFind? s.column_mapping t = some inner)
    (hc : dFind? inner c = some tok) : mask_column_name s t c = (tok, s) := by
  unfold mask_column_name
  rw [dMem, h1]
  simp only [Option.isSome_some, if_pos, h1, Option.getD_some, hc]

theorem mask_column_name_fresh (s : MaskState) (t c : Str)
    (inner rinner : List (Str × Str))
    (h1 : dFind? s.column_mapping t = some inner)
    (h2 : dFind? s.reverse_column_mapping t = some rinner)
    (hc : dFind? inner c = none) :
    mask_column_name s t c =
      (colTok (inner.length + 1),
        { s with
          column_mapping := dSet s.column_mapping t
            (inner ++ [(c, colTok (inner.length + 1))]),
          reverse_column_mapping := dSet s.reverse_column_mapping t
            (rinner ++ [(colTok (inner.length + 1), c)]) }) := by
  unfold mask_column_name
  rw [dMem, h1]
  simp only [Option.isSome_some, if_pos, h1, Option.getD_some, hc, h2]

theorem mask_column_name_new_table (s : MaskState) (t c : Str)
    (h1 : dFind? s.column_mapping t = none)
    (h2 : dFind? s.reverse_column_mapping t = none) :
    mask_column_name s t c =
      (colTok 1,
        { s with
          column_mapping := s.column_mapping ++ [(t, [(c, colTok 1)])],
          reverse_column_mapping :=
            s.reverse_column_mapping ++ [(t, [(colTok 1, c)])] }) := by
  unfold mask_column_name
  rw [dMem, h1]
  simp only [Option.isSome_none, Bool.false_eq_true, if_false]
  rw [dFind?_append, h1]
  simp only [dFind?, if_pos, Option.getD_some]
  rw [dFind?_append, h2]
  simp only [dFind?, if_pos, Option.getD_some]
  rw [dSet_append_fresh _ _ _ _ h1, dSet_append_fresh _ _ _ _ h2]
  simp

theorem maskColumns_spec :
    ∀ (cols : List Str) (s : MaskState) (t : Str) (inner rinner : List (Str × Str)),
      dFind? s.column_mapping t = some inner →
      dFind? s.reverse_column_mapping t = some rinner →
      (∀ c ∈ cols, dFind? inner c = none) → cols.Nodup →
      (maskColumns s t cols).column_mapping
          = dSet s.column_mapping t
            (inner ++ ((cols.enumFrom (inner.length + 1)).map
              fun pr => (pr.2, colTok pr.1)))
        ∧ (maskColumns s t cols).reverse_column_mapping
          = dSet s.reverse_column_mapping t
            (rinner ++ ((cols.enumFrom (inner.length + 1)).map
              fun pr => (colTok pr.1, pr.2)))
        ∧ (maskColumns s t cols).table_mapping = s.table_mapping
        ∧ (maskColumns s t cols).reverse_table_mapping = s.reverse_table_mapping := by
  intro cols
  induction cols with
  | nil =>
    intro s t inner rinner h1 h2 _ _
    have hm : maskColumns s t [] = s := rfl
    rw [hm]
    refine ⟨?_, ?_, rfl, rfl⟩
    · simp only [List.enumFrom, List.map_nil, List.append_nil]
      exact (dSet_self _ _ _ h1).symm
    · simp only [List.enumFrom, List.map_nil, List.append_nil]
      exact (dSet_self _ _ _ h2).symm
  | cons c rest ih =>
    intro s t inner rinner h1 h2 hfresh hnd
    rcases List.nodup_cons.mp hnd with ⟨hc, hrest⟩
    set s' : MaskState :=
      { s with
        column_mapping := dSet s.column_mapping t
          (inner ++ [(c, colTok (inner.length + 1))]),
        reverse_column_mapping := dSet s.reverse_column_mapping t
          (rinner ++ [(colTok (inner.length + 1), c)]) } with hs'
    have hstep : maskColumns s t (c :: rest) = maskColumns s' t rest := by
      simp only [maskColumns, List.foldl_cons]
      rw [mask_column_name_fresh s t c inner rinner h1 h2
        (hfresh c (List.mem_cons_self _ _))]
    rw [hstep]
    have h1' : dFind? s'.column_mapping t
        = some (inner ++ [(c, colTok (inner.length + 1))]) := by
      rw [hs']; exact dFind?_dSet_same _ _ _
    have h2' : dFind? s'.reverse_column_mapping t
        = some (rinner ++ [(colTok (inner.length + 1), c)]) := by
      rw [hs']; exact dFind?_dSet_same _ _ _
    have hfresh' : ∀ c' ∈ rest,
        dFind? (inner ++ [(c, colTok (inner.length + 1))]) c' = none := by
      intro c' hc'
      rw [dFind?_append, hfresh c' (List.mem_cons_of_mem _ hc')]
      have hne : ¬ c = c' := fun he => hc (he ▸ hc')
      simp [dFind?, hne]
    obtain ⟨g1, g2, g3, g4⟩ := ih s' t _ _ h1' h2' hfresh' hrest
    rw [hs'] at g1 g2 g3 g4
    simp only [] at g1 g2 g3 g4
    refine ⟨?_, ?_, g3, g4⟩
    · rw [g1, dSet_dSet]
      simp [List.enumFrom, List.append_assoc, List.length_append]
    · rw [g2, dSet_dSet]
      simp [List.enumFrom, List.append_assoc, List.length_append]

theorem mask_table_name_found (s : MaskState) (n tok : Str)
    (h : dFind? s.table_mapping n = some tok) :
    mask_table_name s n = (tok, s) := by
  unfold mask_table_name
  rw [h]

theorem mask_table_name_fresh (s : MaskState) (n : Str)
    (h : dFind? s.table_mapping n = none) :
    mask_table_name s n =
      (tableTok (s.table_mapping.length + 1),
        { s with
          table_mapping := s.table_mapping
            ++ [(n, tableTok (s.table_mapping.length + 1))],
          reverse_table_mapping := s.reverse_table_mapping
            ++ [(tableTok (s.table_mapping.length + 1), n)] }) := by
  unfold mask_table_name
  rw [h]

/-- Masking a nonempty column list of a table absent from the column maps
creates the table entry and numbers the columns from 1 in order. -/
theorem maskColumns_fresh_cons (s : MaskState) (t c : Str) (rest : List Str)
    (h1 : dFind? s.column_mapping t = none)
    (h2 : dFind? s.reverse_column_mapping t = none)
    (hnd : (c :: rest).Nodup) :
    (maskColumns s t (c :: rest)).column_mapping
        = s.column_mapping
          ++ [(t, ((c :: rest).enumFrom 1).map fun pr => (pr.2, colTok pr.1))]
      ∧ (maskColumns s t (c :: rest)).reverse_column_mapping
        = s.reverse_column_mapping
          ++ [(t, ((c :: rest).enumFrom 1).map fun pr => (colTok pr.1, pr.2))]
      ∧ (maskColumns s t (c :: rest)).table_mapping = s.table_mapping
      ∧ (maskColumns s t (c :: rest)).reverse_table_mapping
        = s.reverse_table_mapping := by
  rcases List.nodup_cons.mp hnd with ⟨hc, hrest⟩
  set s' : MaskState :=
    { s with
      column_mapping := s.column_mapping ++ [(t, [(c, colTok 1)])],
      reverse_column_mapping :=
        s.reverse_column_mapping ++ [(t, [(colTok 1, c)])] } with hs'
  have hstep : maskColumns s t (c :: rest) = maskColumns s' t rest := by
    simp only [maskColumns, List.foldl_cons]
    rw [mask_column_name_new_table s t c h1 h2]
  have h1' : dFind? s'.column_mapping t = some [(c, colTok 1)] := by
    rw [hs']
    simp only []
    rw [dFind?_append, h1]
    simp [dFind?]
  have h2' : dFind? s'.reverse_column_mapping t = some [(colTok 1, c)] := by
    rw [hs']
    simp only []
    rw [dFind?_append, h2]
    simp [dFind?]
  have hfresh' : ∀ c' ∈ rest, dFind? [(c, colTok 1)] c' = none := by
    intro c' hc'
    have hne : ¬ c = c' := fun he => hc (he ▸ hc')
    simp [dFind?, hne]
  obtain ⟨g1, g2, g3, g4⟩ := maskColumns_spec rest s' t _ _ h1' h2' hfresh' hrest
  rw [hstep]
  rw [hs'] at g1 g2 g3 g4
  simp only [] at g1 g2 g3 g4
  refine ⟨?_, ?_, g3, g4⟩
  · rw [g1, dSet_append_fresh _ _ _ _ h1]
    simp [List.enumFrom]
  · rw [g2, dSet_append_fresh _ _ _ _ h2]
    simp [List.enumFrom]

/-- C9: for a run of `mask_table_name` over distinct names from a fresh
masker, the `i`-th name maps to token `table_{i+1}` and re-masking it
returns that token with the state unchanged; for a run of
`mask_column_name` over distinct column names of one table, the `j`-th
column maps to `col_{j+1}` and re-masking returns it with the state
unchanged.  Token assignment is deterministic, idempotent and strictly
sequential per scope. -/
theorem C9_token_assignment (names : List Str) (t : Str) (cols : List Str)
    (hn : names.Nodup) (hc : cols.Nodup) :
    (∀ i (hi : i < names.length),
        dFind? (maskTables initMaskState names).table_mapping
            (names.get ⟨i, hi⟩) = some (tableTok (i + 1))
        ∧ mask_table_name (maskTables initMaskState names) (names.get ⟨i, hi⟩)
          = (tableTok (i + 1), maskTables initMaskState names))
    ∧ (∀ j (hj : j < cols.length),
        dFind? ((dFind? (maskColumns initMaskState t cols).column_mapping t).getD [])
            (cols.get ⟨j, hj⟩) = some (colTok (j + 1))
        ∧ mask_column_name (maskColumns initMaskState t cols) t (cols.get ⟨j, hj⟩)
          = (colTok (j + 1), maskColumns initMaskState t cols)) := by
  constructor
  · intro i hi
    obtain ⟨h1, -, -, -⟩ :=
      maskTables_spec names initMaskState (fun n _ => rfl) hn
    have hlook : dFind? (maskTables initMaskState names).table_mapping
        (names.get ⟨i, hi⟩) = some (tableTok (1 + i)) := by
      rw [h1]
      show dFind? ((names.enumFrom 1).map fun pr => (pr.2, tableTok pr.1)) _ = _
      exact dFind?_enumFrom tableTok names 1 i hi hn
    have hcomm : 1 + i = i + 1 := by omega
    rw [hcomm] at hlook
    exact ⟨hlook, mask_table_name_found _ _ _ hlook⟩
  · intro j hj
    cases cols with
    | nil => simp at hj
    | cons c rest =>
      obtain ⟨g1, -, -, -⟩ :=
        maskColumns_fresh_cons initMaskState t c rest rfl rfl hc
      have hinner : dFind? (maskColumns initMaskState t (c :: rest)).column_mapping t
          = some (((c :: rest).enumFrom 1).map fun pr => (pr.2, colTok pr.1)) := by
        rw [g1]
        show dFind? ([] ++ _) t = _
        simp [dFind?]
      have hlook : dFind? (((c :: rest).enumFrom 1).map
            fun pr => (pr.2, colTok pr.1)) ((c :: rest).get ⟨j, hj⟩)
          = some (colTok (1 + j)) := dFind?_enumFrom colTok (c :: rest) 1 j hj hc
      have hcomm : 1 + j = j + 1 := by omega
      rw [hcomm] at hlook
      refine ⟨?_, ?_⟩
      · rw [hinner]
        simpa using hlook
      · exact mask_column_name_found _ _ _ _ _ hinner hlook

/-- Witness for C9 at concrete inputs. -/
theorem C9_token_assignment_witness :
    (["employees".toList, "departments".toList] : List Str).Nodup
    ∧ (["name".toList, "email".toList] : List Str).Nodup
    ∧ ((∀ i (hi : i < (["employees".toList, "departments".toList] : List Str).length),
        dFind? (maskTables initMaskState
            ["employees".toList, "departments".toList]).table_mapping
            ((["employees".toList, "departments".toList] : List Str).get ⟨i, hi⟩)
          = some (tableTok (i + 1))
        ∧ mask_table_name (maskTables initMaskState
              ["employees".toList, "departments".toList])
            ((["employees".toList, "departments".toList] : List Str).get ⟨i, hi⟩)
          = (tableTok (i + 1),
              maskTables initMaskState ["employees".toList, "departments".toList]))
    ∧ (∀ j (hj : j < (["name".toList, "email".toList] : List Str).length),
        dFind? ((dFind? (maskColumns initMaskState "employees".toList
              ["name".toList, "email".toList]).column_mapping
              "employees".toList).getD [])
            ((["name".toList, "email".toList] : List Str).get ⟨j, hj⟩)
          = some (colTok (j + 1))
        ∧ mask_column_name (maskColumns initMaskState "employees".toList
              ["name".toList, "email".toList]) "employees".toList
            ((["name".toList, "email".toList] : List Str).get ⟨j, hj⟩)
          = (colTok (j + 1),
              maskColumns initMaskState "employees".toList
                ["name".toList, "email".toList]))) :=
  ⟨by decide, by decide,
    C9_token_assignment ["employees".toList, "departments".toList]
      "employees".toList ["name".toList, "email".toList] (by decide) (by decide)⟩

/-- C1: the claim that `unmask_sql_query` never raises and returns its
input unchanged on internal error describes the `try`/`except` of the
FIRST definition (line 62), but the second definition (line 119) shadows
it at class-body execution and has no handler: on the reachable state
obtained by masking the table name `foo\d`, unmasking the query
`table_1` raises `re.error` (invalid replacement escape `\d`) to the
caller, whereas the shadowed definition would have caught it and
returned the input unchanged. -/
theorem C1_unmask_error_policy :
    classEffectiveDef dataMaskingManagerDefs "unmask_sql_query" = some 119
    ∧ unmask_sql_query c1State "table_1".toList = .error ()
    ∧ unmask_sql_query_shadowed c1State "table_1".toList = "table_1".toList :=
  ⟨rfl, rfl, rfl⟩

/-! ## Character facts for case-insensitive matching -/

theorem uint32_le_iff (a b : UInt32) : a ≤ b ↔ a.toNat ≤ b.toNat := by
  rw [UInt32.le_def, BitVec.le_def]
  rfl

theorem toNat_ofNat_valid (n : Nat) (h : n.isValidChar) :
    (Char.ofNat n).toNat = n := by
  unfold Char.ofNat
  rw [dif_pos h]
  unfold Char.ofNatAux Char.toNat
  simp [Char.val, UInt32.toNat, BitVec.toNat_ofNatLt]

theorem char_eq_iff_toNat (a b : Char) : a = b ↔ a.toNat = b.toNat := by
  constructor
  · intro h; rw [h]
  · intro h
    apply Char.ext
    apply UInt32.ext
    exact h

theorem toLower_toNat (c : Char) :
    (Char.toLower c).toNat =
      if 65 ≤ c.toNat ∧ c.toNat ≤ 90 then c.toNat + 32 else c.toNat := by
  unfold Char.toLower
  by_cases h : c.toNat ≥ 65 ∧ c.toNat ≤ 90
  · rw [if_pos h, if_pos ⟨h.1, h.2⟩]
    exact toNat_ofNat_valid _ (Or.inl (by omega))
  · rw [if_neg h, if_neg (by exact fun hc => h ⟨hc.1, hc.2⟩)]

theorem isWordChar_toNat_ranges (c : Char) (h : isWordChar c = true) :
    (65 ≤ c.toNat ∧ c.toNat ≤ 90) ∨ (97 ≤ c.toNat ∧ c.toNat ≤ 122)
      ∨ (48 ≤ c.toNat ∧ c.toNat ≤ 57) ∨ c.toNat = 95 := by
  simp only [isWordChar, Char.isAlpha, Char.isUpper, Char.isLower, Char.isDigit,
    Bool.or_eq_true, Bool.and_eq_true, decide_eq_true_eq, ge_iff_le,
    beq_iff_eq] at h
  rcases h with ((⟨h1, h2⟩ | ⟨h1, h2⟩) | ⟨h1, h2⟩) | h
  · exact Or.inl ⟨(uint32_le_iff _ _).mp h1, (uint32_le_iff _ _).mp h2⟩
  · exact Or.inr (Or.inl ⟨(uint32_le_iff _ _).mp h1, (uint32_le_iff _ _).mp h2⟩)
  · exact Or.inr (Or.inr (Or.inl
      ⟨(uint32_le_iff _ _).mp h1, (uint32_le_iff _ _).mp h2⟩))
  · exact Or.inr (Or.inr (Or.inr (by rw [h]; rfl)))

theorem isWordChar_of_toNat_ranges (c : Char)
    (h : (65 ≤ c.toNat ∧ c.toNat ≤ 90) ∨ (97 ≤ c.toNat ∧ c.toNat ≤ 122)
      ∨ (48 ≤ c.toNat ∧ c.toNat ≤ 57) ∨ c.toNat = 95) :
    isWordChar c = true := by
  simp only [isWordChar, Char.isAlpha, Char.isUpper, Char.isLower, Char.isDigit,
    Bool.or_eq_true, Bool.and_eq_true, decide_eq_true_eq, ge_iff_le,
    beq_iff_eq]
  rcases h with ⟨h1, h2⟩ | ⟨h1, h2⟩ | ⟨h1, h2⟩ | h
  · exact Or.inl (Or.inl (Or.inl
      ⟨(uint32_le_iff _ _).mpr h1, (uint32_le_iff _ _).mpr h2⟩))
  · exact Or.inl (Or.inl (Or.inr
      ⟨(uint32_le_iff _ _).mpr h1, (uint32_le_iff _ _).mpr h2⟩))
  · exact Or.inl (Or.inr ⟨(uint32_le_iff _ _).mpr h1, (uint32_le_iff _ _).mpr h2⟩)
  · exact Or.inr ((char_eq_iff_toNat c '_').mpr h)

/-- Characters outside the uppercase range are fixed by `toLower`. -/
theorem toLower_fixed (c : Char) (h : ¬(65 ≤ c.toNat ∧ c.toNat ≤ 90)) :
    Char.toLower c = c := by
  rw [char_eq_iff_toNat, toLower_toNat, if_neg h]

theorem isWordChar_toLower (c : Char) :
    isWordChar (Char.toLower c) = isWordChar c := by
  by_cases hu : 65 ≤ c.toNat ∧ c.toNat ≤ 90
  · have hlow : 97 ≤ (Char.toLower c).toNat ∧ (Char.toLower c).toNat ≤ 122 := by
      rw [toLower_toNat, if_pos hu]
      omega
    rw [isWordChar_of_toNat_ranges c (Or.inl hu),
      isWordChar_of_toNat_ranges _ (Or.inr (Or.inl hlow))]
  · rw [toLower_fixed c hu]

/-- A word character and a non-word character never compare equal
case-insensitively. -/
theorem toLower_ne_of_word_nonword (a b : Char) (ha : isWordChar a = true)
    (hb : isWordChar b = false) : Char.toLower a ≠ Char.toLower b := by
  intro h
  have h1 : isWordChar (Char.toLower a) = true := by rw [isWordChar_toLower]; exact ha
  have h2 : isWordChar (Char.toLower b) = false := by rw [isWordChar_toLower]; exact hb
  rw [h, h2] at h1
  exact Bool.false_ne_true h1



/-! ## Word-structured texts under the scanner -/

/-- A text consisting only of word characters. -/
def AllWord (w : Str) : Prop := ∀ c ∈ w, isWordChar c = true

instance (w : Str) : Decidable (AllWord w) := by
  unfold AllWord; infer_instance

theorem allWord_no_backslash (w : Str) (hw : AllWord w) : '\\' ∉ w := by
  intro hm
  have := hw '\\' hm
  simp [isWordChar] at this

theorem getLastD_word (l : Str) :
    ∀ d : Char, isWordChar d = true → AllWord l →
      isWordChar (l.getLastD d) = true := by
  induction l with
  | nil => intro d hd _; exact hd
  | cons c rest ih =>
    intro d _ hl
    rw [List.getLastD_cons]
    exact ih c (hl c (List.mem_cons_self _ _))
      (fun x hx => hl x (List.mem_cons_of_mem _ hx))

theorem patEndWord_allWord (p : Str) (hp : AllWord p) (hpne : p ≠ []) :
    patEndWord p = true := by
  unfold patEndWord
  cases p with
  | nil => exact absurd rfl hpne
  | cons c rest =>
    rw [List.getLastD_cons]
    exact getLastD_word rest c (hp c (List.mem_cons_self _ _))
      (fun x hx => hp x (List.mem_cons_of_mem _ hx))

theorem ciPrefix_iff (p t : Str) : ciPrefix p t = true ↔ lowerStr p <+: lowerStr t :=
  List.isPrefixOf_iff_prefix

theorem lowerStr_append (a b : Str) : lowerStr (a ++ b) = lowerStr a ++ lowerStr b :=
  List.map_append _ _ _

theorem lowerStr_length (a : Str) : (lowerStr a).length = a.length :=
  List.length_map _ _

/-- Inside a word (previous character is a word character), the scanner
copies word characters unchanged: `\b` cannot hold between two word
characters. -/
theorem wwScan_inWord (p lit : Str) :
    ∀ (w s : Str), AllWord w →
      wwSubFuel p lit (w ++ s).length true (w ++ s)
        = w ++ wwSubFuel p lit s.length true s := by
  intro w
  induction w with
  | nil => intro s _; simp
  | cons c w' ih =>
    intro s hw
    have hc : isWordChar c = true := hw c (List.mem_cons_self _ _)
    rw [show (c :: w') ++ s = c :: (w' ++ s) from rfl,
      show (c :: (w' ++ s)).length = (w' ++ s).length + 1 from rfl, wwSubGoEq]
    have hnm : ¬ matchHere p true c (w' ++ s) := by
      rintro ⟨-, -, hb, -⟩
      rw [hc] at hb
      exact hb rfl
    rw [if_neg hnm, hc, ih s (fun x hx => hw x (List.mem_cons_of_mem _ hx))]
    rfl

/-- At a non-word character, an all-word pattern cannot match; the
character is copied and the scanner continues with `prev = false`. -/
theorem wwScan_sep (p lit : Str) (hp : AllWord p) (hpne : p ≠ []) (d : Char)
    (hd : isWordChar d = false) (s : Str) (prev : Bool) :
    wwSubFuel p lit (d :: s).length prev (d :: s)
      = d :: wwSubFuel p lit s.length false s := by
  rw [show (d :: s).length = s.length + 1 from rfl, wwSubGoEq]
  have hnm : ¬ matchHere p prev d s := by
    rintro ⟨-, hpre, -, -⟩
    rw [ciPrefix_iff] at hpre
    cases p with
    | nil => exact hpne rfl
    | cons q p' =>
      have hq : isWordChar q = true := hp q (List.mem_cons_self _ _)
      obtain ⟨t, ht⟩ := hpre
      have hhead : Char.toLower q = Char.toLower d := by
        have h2 : Char.toLower q :: (lowerStr p' ++ t)
            = Char.toLower d :: lowerStr s := by
          simpa [lowerStr] using ht
        exact (List.cons_eq_cons.mp h2).1
      exact toLower_ne_of_word_nonword q d hq hd hhead
  rw [if_neg hnm, hd]

/-- At the start of a maximal word `c :: w'` (previous character non-word,
following text `s` empty or starting with a non-word character), an
all-word pattern matches iff it equals the whole word case-insensitively. -/
theorem matchHere_wordStart (p : Str) (hp : AllWord p) (hpne : p ≠ [])
    (c : Char) (w' s : Str) (hw : AllWord (c :: w'))
    (hs : s = [] ∨ ∃ d s', s = d :: s' ∧ isWordChar d = false) :
    matchHere p false c (w' ++ s) ↔ lowerStr (c :: w') = lowerStr p := by
  constructor
  · rintro ⟨h0, hpre, hb, hba⟩
    rw [ciPrefix_iff] at hpre
    have hpre2 : lowerStr p <+: lowerStr ((c :: w') ++ s) := hpre
    have hba2 : boundaryAfter p ((c :: w') ++ s) = true := hba
    rcases Nat.lt_or_ge p.length (c :: w').length with hlt | hge
    · exfalso
      have hdrop : ((c :: w') ++ s).drop p.length
          = (c :: w').drop p.length ++ s :=
        List.drop_append_of_le_length (Nat.le_of_lt hlt)
      cases heq : (c :: w').drop p.length with
      | nil =>
        have := congrArg List.length heq
        simp only [List.length_drop, List.length_nil, List.length_cons] at this
        simp only [List.length_cons] at hlt
        omega
      | cons e es =>
        have he : isWordChar e = true := by
          apply hw
          exact List.Sublist.mem (heq ▸ List.mem_cons_self e es)
            (List.drop_sublist p.length (c :: w'))
        unfold boundaryAfter at hba2
        rw [hdrop, heq] at hba2
        simp only [List.cons_append] at hba2
        have hba3 : (patEndWord p != isWordChar e) = true := hba2
        rw [patEndWord_allWord p hp hpne, he] at hba3
        simp at hba3
    · rcases Nat.eq_or_lt_of_le hge with heq | hgt
      · have h1 : lowerStr p
            = (lowerStr (c :: w') ++ lowerStr s).take (lowerStr p).length := by
          have := List.prefix_iff_eq_take.mp hpre2
          rw [lowerStr_append] at this
          exact this
        have hlen : (lowerStr p).length = (lowerStr (c :: w')).length := by
          rw [lowerStr_length, lowerStr_length, heq]
        rw [hlen, List.take_append_of_le_length (Nat.le_refl _),
          List.take_length] at h1
        exact h1.symm
      · exfalso
        rcases hs with rfl | ⟨d, s', rfl, hd⟩
        · rw [List.append_nil] at hpre2
          have := hpre2.length_le
          rw [lowerStr_length, lowerStr_length] at this
          omega
        · have hidx : (c :: w').length < (lowerStr p).length := by
            rw [lowerStr_length]; exact hgt
          have h1 := hpre2.getElem hidx
          have hy : lowerStr ((c :: w') ++ (d :: s'))
              = lowerStr (c :: w') ++ (Char.toLower d :: lowerStr s') := by
            simp [lowerStr]
          have hidx2 : (c :: w').length < (lowerStr ((c :: w') ++ (d :: s'))).length := by
            rw [lowerStr_length]
            simp only [List.length_append, List.length_cons]
            omega
          have h2 : (lowerStr ((c :: w') ++ (d :: s')))[(c :: w').length]
              = Char.toLower d := by
            rw [List.getElem_of_eq hy]
            rw [List.getElem_append_right (by rw [lowerStr_length])]
            simp [lowerStr_length]
          have hplen : (c :: w').length < p.length := hgt
          have h3 : (lowerStr p)[(c :: w').length]
              = Char.toLower (p[(c :: w').length]) := by
            simp [lowerStr]
          have hpw : isWordChar (p[(c :: w').length]) = true :=
            hp _ (List.getElem_mem hplen)
          exact toLower_ne_of_word_nonword _ d hpw hd (by rw [← h3, h1, h2])
  · intro hciq
    have hlen : p.length = (c :: w').length := by
      have := congrArg List.length hciq
      rw [lowerStr_length, lowerStr_length] at this
      omega
    refine ⟨?_, ?_, ?_, ?_⟩
    · simp only [List.length_cons] at hlen
      omega
    · rw [ciPrefix_iff]
      show lowerStr p <+: lowerStr ((c :: w') ++ s)
      rw [lowerStr_append, ← hciq]
      exact List.prefix_append _ _
    · rw [hw c (List.mem_cons_self _ _)]
      exact fun h => Bool.false_ne_true h
    · show boundaryAfter p ((c :: w') ++ s) = true
      unfold boundaryAfter
      rw [hlen, List.drop_left]
      rcases hs with rfl | ⟨d, s', rfl, hd⟩
      · exact patEndWord_allWord p hp hpne
      · have : (patEndWord p != isWordChar d) = true := by
          rw [patEndWord_allWord p hp hpne, hd]
          rfl
        exact this

/-- Substituting an all-word pattern over a maximal word: the whole word
is replaced iff it equals the pattern case-insensitively. -/
theorem wwScan_wordStart (p lit : Str) (hp : AllWord p) (hpne : p ≠ [])
    (w s : Str) (hw : AllWord w) (hwne : w ≠ [])
    (hs : s = [] ∨ ∃ d s', s = d :: s' ∧ isWordChar d = false) :
    wwSubFuel p lit (w ++ s).length false (w ++ s)
      = (if lowerStr w = lowerStr p then lit else w)
        ++ wwSubFuel p lit s.length true s := by
  cases w with
  | nil => exact absurd rfl hwne
  | cons c w' =>
    rw [show (c :: w') ++ s = c :: (w' ++ s) from rfl,
      show (c :: (w' ++ s)).length = (w' ++ s).length + 1 from rfl, wwSubGoEq]
    by_cases hm : lowerStr (c :: w') = lowerStr p
    · have hmh := (matchHere_wordStart p hp hpne c w' s hw hs).mpr hm
      rw [if_pos hmh, if_pos hm]
      have hlen : p.length = (c :: w').length := by
        have := congrArg List.length hm
        rw [lowerStr_length, lowerStr_length] at this
        omega
      have hdrop : (c :: (w' ++ s)).drop p.length = s := by
        rw [show c :: (w' ++ s) = (c :: w') ++ s from rfl, hlen, List.drop_left]
      rw [hdrop, patEndWord_allWord p hp hpne]
    · have hmh : ¬ matchHere p false c (w' ++ s) :=
        fun h => hm ((matchHere_wordStart p hp hpne c w' s hw hs).mp h)
      rw [if_neg hmh, if_neg hm, hw c (List.mem_cons_self _ _),
        wwScan_inWord p lit w' s (fun x hx => hw x (List.mem_cons_of_mem _ hx))]
      rfl

/-- Words joined by single spaces. -/
def spaceJoin : List Str → Str
  | [] => []
  | [w] => w
  | w :: ws => w ++ ' ' :: spaceJoin ws

/-- Word-level image of one whole-word substitution. -/
def wordSub1 (p lit w : Str) : Str := if lowerStr w = lowerStr p then lit else w

/-- Over a space-joined list of nonempty words, whole-word substitution of
an all-word pattern acts word by word. -/
theorem wwSub_spaceJoin (p lit : Str) (hp : AllWord p) (hpne : p ≠ []) :
    ∀ (ws : List Str), (∀ w ∈ ws, AllWord w ∧ w ≠ []) →
      wwSub p lit (spaceJoin ws) = spaceJoin (ws.map (wordSub1 p lit)) := by
  intro ws
  induction ws with
  | nil => intro _; rfl
  | cons w ws' ih =>
    intro hws
    obtain ⟨hw, hwne⟩ := hws w (List.mem_cons_self _ _)
    cases ws' with
    | nil =>
      show wwSubFuel p lit (spaceJoin [w]).length false (spaceJoin [w])
        = spaceJoin [wordSub1 p lit w]
      have h1 : spaceJoin [w] = w ++ [] := (List.append_nil w).symm
      rw [h1, wwScan_wordStart p lit hp hpne w [] hw hwne (Or.inl rfl)]
      show wordSub1 p lit w ++ wwSubFuel p lit 0 true [] = spaceJoin [wordSub1 p lit w]
      rw [show wwSubFuel p lit 0 true [] = [] from rfl, List.append_nil]
      rfl
    | cons w₂ ws'' =>
      show wwSubFuel p lit (spaceJoin (w :: w₂ :: ws'')).length false
          (spaceJoin (w :: w₂ :: ws''))
        = spaceJoin ((w :: w₂ :: ws'').map (wordSub1 p lit))
      have h1 : spaceJoin (w :: w₂ :: ws'') = w ++ ' ' :: spaceJoin (w₂ :: ws'') := rfl
      rw [h1, wwScan_wordStart p lit hp hpne w (' ' :: spaceJoin (w₂ :: ws'')) hw hwne
        (Or.inr ⟨' ', spaceJoin (w₂ :: ws''), rfl, by decide⟩)]
      rw [wwScan_sep p lit hp hpne ' ' (by decide) (spaceJoin (w₂ :: ws'')) true]
      have ihr := ih (fun x hx => hws x (List.mem_cons_of_mem _ hx))
      show wordSub1 p lit w ++ ' ' :: wwSub p lit (spaceJoin (w₂ :: ws''))
        = spaceJoin ((w :: w₂ :: ws'').map (wordSub1 p lit))
      rw [ihr]
      rfl

/-- Word-level image of a sequence of whole-word substitutions. -/
def wordSub (pairs : List (Str × Str)) (w : Str) : Str :=
  pairs.foldl (fun w pr => wordSub1 pr.1 pr.2 w) w

theorem subAllE_spaceJoin :
    ∀ (pairs : List (Str × Str)),
      (∀ pr ∈ pairs, AllWord pr.1 ∧ pr.1 ≠ [] ∧ AllWord pr.2 ∧ pr.2 ≠ []) →
      ∀ (ws : List Str), (∀ w ∈ ws, AllWord w ∧ w ≠ []) →
        subAllE pairs (spaceJoin ws)
          = .ok (spaceJoin (ws.map (wordSub pairs))) := by
  intro pairs
  induction pairs with
  | nil =>
    intro _ ws _
    show Except.ok (spaceJoin ws) = _
    have hm : List.map (wordSub []) ws = ws :=
      List.map_id'' (fun w => rfl) ws
    rw [hm]
  | cons pr rest ih =>
    intro hpairs ws hws
    obtain ⟨hp1, hp1ne, hp2, hp2ne⟩ := hpairs pr (List.mem_cons_self _ _)
    show List.foldlM _ (spaceJoin ws) (pr :: rest) = _
    rw [List.foldlM_cons]
    have hok : wwSubE pr.1 pr.2 (spaceJoin ws)
        = .ok (wwSub pr.1 pr.2 (spaceJoin ws)) :=
      wwSubE_no_backslash _ _ _ (allWord_no_backslash _ hp2)
    simp only [hok]
    have hsub : wwSub pr.1 pr.2 (spaceJoin ws)
        = spaceJoin (ws.map (wordSub1 pr.1 pr.2)) :=
      wwSub_spaceJoin pr.1 pr.2 hp1 hp1ne ws hws
    show subAllE rest (wwSub pr.1 pr.2 (spaceJoin ws)) = _
    rw [hsub]
    have hws' : ∀ w ∈ ws.map (wordSub1 pr.1 pr.2), AllWord w ∧ w ≠ [] := by
      intro w hw
      obtain ⟨w₀, hw₀, rfl⟩ := List.mem_map.mp hw
      unfold wordSub1
      by_cases h : lowerStr w₀ = lowerStr pr.1
      · rw [if_pos h]; exact ⟨hp2, hp2ne⟩
      · rw [if_neg h]; exact hws w₀ hw₀
    rw [ih (fun q hq => hpairs q (List.mem_cons_of_mem _ hq)) _ hws',
      List.map_map]
    rfl

/-- With no column mappings, `mask_user_query` is exactly the fold of the
table substitutions. -/
theorem mask_user_query_noCols :
    ∀ (l : List (Str × Str)) (q : Str),
      l.foldlM
        (fun (acc : Str) (pr : Str × Str) => do
          let acc ← wwSubE pr.1 pr.2 acc
          match dFind? ([] : List (Str × List (Str × Str))) pr.1 with
          | some cols => subAllE cols acc
          | none => pure acc)
        q = subAllE l q := by
  intro l
  induction l with
  | nil => intro q; rfl
  | cons pr rest ih =>
    intro q
    rw [List.foldlM_cons]
    show (wwSubE pr.1 pr.2 q >>= fun acc => pure acc) >>= _ = _
    rw [bind_pure]
    show _ = List.foldlM _ q (pr :: rest)
    rw [List.foldlM_cons]
    cases h : wwSubE pr.1 pr.2 q with
    | error e => rfl
    | ok v =>
      show List.foldlM _ v rest = subAllE rest v
      exact ih v

theorem mask_user_query_tablesOnly (s : MaskState)
    (hcol : s.column_mapping = []) (q si : Str) :
    mask_user_query s q si = subAllE s.table_mapping q := by
  unfold mask_user_query
  rw [hcol]
  exact mask_user_query_noCols s.table_mapping q

theorem unmask_tablesOnly (s : MaskState)
    (hrc : s.reverse_column_mapping = []) (t : Str) :
    unmask_sql_query s t = subAllE s.reverse_table_mapping t := by
  unfold unmask_sql_query
  rw [hrc]
  show subAllE s.reverse_table_mapping t >>= (fun q => pure q) = _
  rw [bind_pure]

/-! ## Token facts -/

theorem digit_isWordChar (c : Char) (h : '0' ≤ c ∧ c ≤ '9') :
    isWordChar c = true := by
  apply isWordChar_of_toNat_ranges
  refine Or.inr (Or.inr (Or.inl ⟨?_, ?_⟩))
  · exact (uint32_le_iff _ _).mp (Char.le_def.mp h.1)
  · exact (uint32_le_iff _ _).mp (Char.le_def.mp h.2)

theorem digit_not_upper (c : Char) (h : '0' ≤ c ∧ c ≤ '9') :
    ¬(65 ≤ c.toNat ∧ c.toNat ≤ 90) := by
  have h1 : 48 ≤ c.toNat := (uint32_le_iff _ _).mp (Char.le_def.mp h.1)
  have h2 : c.toNat ≤ 57 := (uint32_le_iff _ _).mp (Char.le_def.mp h.2)
  omega

theorem allWord_tableTok (n : Nat) : AllWord (tableTok n) := by
  intro c hc
  rcases List.mem_append.mp hc with hc | hc
  · have : c = 't' ∨ c = 'a' ∨ c = 'b' ∨ c = 'l' ∨ c = 'e' ∨ c = '_' := by
      simpa using hc
    rcases this with rfl | rfl | rfl | rfl | rfl | rfl <;> decide
  · exact digit_isWordChar c (natDecimal_digits n c hc)

theorem allWord_colTok (n : Nat) : AllWord (colTok n) := by
  intro c hc
  rcases List.mem_append.mp hc with hc | hc
  · have : c = 'c' ∨ c = 'o' ∨ c = 'l' ∨ c = '_' := by
      simpa using hc
    rcases this with rfl | rfl | rfl | rfl <;> decide
  · exact digit_isWordChar c (natDecimal_digits n c hc)

theorem tableTok_ne_nil (n : Nat) : tableTok n ≠ [] := by
  unfold tableTok
  simp

theorem colTok_ne_nil (n : Nat) : colTok n ≠ [] := by
  unfold colTok
  simp

theorem lowerStr_fixed (w : Str)
    (h : ∀ c ∈ w, ¬(65 ≤ c.toNat ∧ c.toNat ≤ 90)) : lowerStr w = w := by
  unfold lowerStr
  rw [List.map_congr_left (fun c hc => toLower_fixed c (h c hc))]
  exact List.map_id _

theorem lowerStr_tableTok (n : Nat) : lowerStr (tableTok n) = tableTok n := by
  apply lowerStr_fixed
  intro c hc
  rcases List.mem_append.mp hc with hc | hc
  · have : c = 't' ∨ c = 'a' ∨ c = 'b' ∨ c = 'l' ∨ c = 'e' ∨ c = '_' := by
      simpa using hc
    rcases this with rfl | rfl | rfl | rfl | rfl | rfl <;> decide
  · exact digit_not_upper c (natDecimal_digits n c hc)

theorem lowerStr_colTok (n : Nat) : lowerStr (colTok n) = colTok n := by
  apply lowerStr_fixed
  intro c hc
  rcases List.mem_append.mp hc with hc | hc
  · have : c = 'c' ∨ c = 'o' ∨ c = 'l' ∨ c = '_' := by
      simpa using hc
    rcases this with rfl | rfl | rfl | rfl <;> decide
  · exact digit_not_upper c (natDecimal_digits n c hc)

theorem tableTok_inj (a b : Nat) (h : tableTok a = tableTok b) : a = b := by
  unfold tableTok at h
  exact natDecimal_injective (List.append_cancel_left h)

theorem colTok_inj (a b : Nat) (h : colTok a = colTok b) : a = b := by
  unfold colTok at h
  exact natDecimal_injective (List.append_cancel_left h)

theorem colTok_ne_tableTok (a b : Nat) : colTok a ≠ tableTok b := by
  intro h
  have : 'c' = 't' := by
    have h2 : 'c' :: (['o', 'l', '_'] ++ natDecimal a)
        = 't' :: (['a', 'b', 'l', 'e', '_'] ++ natDecimal b) := h
    exact (List.cons_eq_cons.mp h2).1
  simp at this

/-! ## Word-level action of masking and unmasking (tables scope) -/

theorem wordSub_skip (pairs : List (Str × Str)) (w : Str)
    (h : ∀ pr ∈ pairs, lowerStr w ≠ lowerStr pr.1) : wordSub pairs w = w := by
  induction pairs with
  | nil => rfl
  | cons pr rest ih =>
    unfold wordSub
    rw [List.foldl_cons]
    have h1 : wordSub1 pr.1 pr.2 w = w := by
      unfold wordSub1
      rw [if_neg (h pr (List.mem_cons_self _ _))]
    rw [h1]
    exact ih (fun q hq => h q (List.mem_cons_of_mem _ hq))

theorem snd_mem_enumFrom {α : Type} :
    ∀ (l : List α) (n : Nat) (x : Nat × α), x ∈ l.enumFrom n → x.2 ∈ l := by
  intro l
  induction l with
  | nil => intro n x hx; simp [List.enumFrom] at hx
  | cons a rest ih =>
    intro n x hx
    rcases List.mem_cons.mp hx with rfl | hx
    · exact List.mem_cons_self _ _
    · exact List.mem_cons_of_mem _ (ih (n + 1) x hx)

/-- Mask direction: the `k`-th name (0-based), substituted through the
forward pairs starting at token index `m`, becomes the `(m+k)`-th token.
`tokf` is the token shape (`table_{i}` or `col_{i}`): lowercase-fixed and
injective. -/
theorem wordSub_mask_aux (tokf : Nat → Str)
    (hfix : ∀ j, lowerStr (tokf j) = tokf j) :
    ∀ (names : List Str) (m k : Nat) (hk : k < names.length),
      List.Pairwise (fun a b => lowerStr a ≠ lowerStr b) names →
      (∀ n ∈ names, ∀ j, lowerStr n ≠ lowerStr (tokf j)) →
      wordSub ((names.enumFrom m).map fun pr => (pr.2, tokf pr.1))
          (names.get ⟨k, hk⟩)
        = tokf (m + k) := by
  intro names
  induction names with
  | nil => intro m k hk; simp at hk
  | cons n rest ih =>
    intro m k hk hpw htok
    rcases List.pairwise_cons.mp hpw with ⟨hn, hrest⟩
    cases k with
    | zero =>
      show wordSub ((n, tokf m) :: _) n = tokf (m + 0)
      unfold wordSub
      rw [List.foldl_cons]
      rw [show wordSub1 n (tokf m) n = tokf m from by
        unfold wordSub1; rw [if_pos rfl]]
      rw [Nat.add_zero]
      apply wordSub_skip
      intro pr hpr
      obtain ⟨q, hq, rfl⟩ := List.mem_map.mp hpr
      exact (htok q.2 (List.mem_cons_of_mem _ (snd_mem_enumFrom _ _ _ hq)) m).symm
        |> fun h => by
          rw [hfix] at h ⊢
          exact h
    | succ j =>
      have hj : j < rest.length := by simpa using hk
      show wordSub ((n, tokf m) :: _) ((n :: rest).get ⟨j + 1, hk⟩)
        = tokf (m + (j + 1))
      rw [List.get_cons_succ]
      unfold wordSub
      rw [List.foldl_cons]
      have hne : lowerStr (rest.get ⟨j, hj⟩) ≠ lowerStr n :=
        fun he => hn (rest.get ⟨j, hj⟩) (rest.get_mem _ _) he.symm
      rw [show wordSub1 n (tokf m) (rest.get ⟨j, hj⟩) = rest.get ⟨j, hj⟩ from by
        unfold wordSub1; rw [if_neg hne]]
      have hih := ih (m + 1) j hj hrest
        (fun q hq j' => htok q (List.mem_cons_of_mem _ hq) j')
      show wordSub ((rest.enumFrom (m + 1)).map fun pr => (pr.2, tokf pr.1))
          (rest.get ⟨j, hj⟩) = tokf (m + (j + 1))
      rw [hih]
      have harith : m + 1 + j = m + (j + 1) := by omega
      rw [harith]

/-- Unmask direction: the `(m+k)`-th token, substituted through the
reverse pairs starting at index `m`, becomes the `k`-th name. -/
theorem wordSub_unmask_aux (tokf : Nat → Str)
    (hfix : ∀ j, lowerStr (tokf j) = tokf j)
    (hinj : ∀ a b, tokf a = tokf b → a = b) :
    ∀ (names : List Str) (m k : Nat) (hk : k < names.length),
      (∀ n ∈ names, ∀ j, lowerStr n ≠ lowerStr (tokf j)) →
      wordSub ((names.enumFrom m).map fun pr => (tokf pr.1, pr.2))
          (tokf (m + k))
        = names.get ⟨k, hk⟩ := by
  intro names
  induction names with
  | nil => intro m k hk; simp at hk
  | cons n rest ih =>
    intro m k hk htok
    cases k with
    | zero =>
      show wordSub ((tokf m, n) :: _) (tokf (m + 0)) = _
      unfold wordSub
      rw [List.foldl_cons]
      rw [show wordSub1 (tokf m) n (tokf (m + 0)) = n from by
        unfold wordSub1
        rw [Nat.add_zero, if_pos rfl]]
      show wordSub _ n = n
      apply wordSub_skip
      intro pr hpr
      obtain ⟨q, hq, rfl⟩ := List.mem_map.mp hpr
      exact htok n (List.mem_cons_self _ _) q.1
    | succ j =>
      have hj : j < rest.length := by simpa using hk
      show wordSub ((tokf m, n) :: _) (tokf (m + (j + 1)))
        = (n :: rest).get ⟨j + 1, hk⟩
      rw [List.get_cons_succ]
      unfold wordSub
      rw [List.foldl_cons]
      have hne : lowerStr (tokf (m + (j + 1))) ≠ lowerStr (tokf m) := by
        rw [hfix, hfix]
        intro he
        have := hinj _ _ he
        omega
      rw [show wordSub1 (tokf m) n (tokf (m + (j + 1)))
          = tokf (m + (j + 1)) from by unfold wordSub1; rw [if_neg hne]]
      have harith : m + (j + 1) = m + 1 + j := by omega
      rw [harith]
      exact ih (m + 1) j hj (fun q hq j' => htok q (List.mem_cons_of_mem _ hq) j')

/-- Masker state reached by masking a list of table names in order. -/
def tablesState (names : List Str) : MaskState := maskTables initMaskState names

def c3State : MaskState := tablesState ["employees".toList]

/-- C3 counterexample: on the reachable state that knows the table name
`employees`, the text `employees` (composed only of known identifiers,
with no prefix collisions) satisfies `unmask(t) = t` but
`mask(unmask(t)) = table_1 ≠ t`, so the claimed conjunction
`unmask(mask(t)) = t ∧ mask(unmask(t)) = t` fails. -/
theorem C3_roundtrip_counterexample :
    unmask_sql_query c3State "employees".toList = .ok "employees".toList
    ∧ mask_user_query c3State "employees".toList [] = .ok "table_1".toList
    ∧ "table_1".toList ≠ "employees".toList :=
  ⟨rfl, rfl, by decide⟩

/-- C3 amended: on a masker state built from distinct (case-insensitively)
nonempty all-word table names none of which looks like a `table_` token,
the two round-trips hold separately on the text classes they apply to:
unmasking after masking restores a text made of known original names, and
masking after unmasking restores a text made of the masker's tokens.  (The
original claim's conjunction for a single text fails — see the
counterexample — and column tokens shared across tables are excluded;
see C10.) -/
theorem C3_roundtrip_amended (names : List Str) (si : Str)
    (hall : ∀ n ∈ names, AllWord n ∧ n ≠ [])
    (hpw : List.Pairwise (fun a b => lowerStr a ≠ lowerStr b) names)
    (hpref : ∀ n ∈ names, ¬ ("table_".toList <+: lowerStr n))
    (ws : List Str) (hws : ∀ w ∈ ws, w ∈ names)
    (toks : List Str)
    (htoks : ∀ w ∈ toks, ∃ k, k < names.length ∧ w = tableTok (k + 1)) :
    (mask_user_query (tablesState names) (spaceJoin ws) si).bind
        (fun q => unmask_sql_query (tablesState names) q)
      = .ok (spaceJoin ws)
    ∧ (unmask_sql_query (tablesState names) (spaceJoin toks)).bind
        (fun q => mask_user_query (tablesState names) q si)
      = .ok (spaceJoin toks) := by
  have htok' : ∀ n ∈ names, ∀ j, lowerStr n ≠ lowerStr (tableTok j) := by
    intro n hn j he
    apply hpref n hn
    rw [he, lowerStr_tableTok]
    exact ⟨natDecimal j, rfl⟩
  have hnd : names.Nodup := hpw.imp (fun hne he => hne (by rw [he]))
  obtain ⟨ht, hr, hcm, hrcm⟩ :=
    maskTables_spec names initMaskState (fun n _ => rfl) hnd
  have ht' : (tablesState names).table_mapping
      = (names.enumFrom 1).map fun pr => (pr.2, tableTok pr.1) := by
    simpa using ht
  have hr' : (tablesState names).reverse_table_mapping
      = (names.enumFrom 1).map fun pr => (tableTok pr.1, pr.2) := by
    simpa using hr
  have hcm' : (tablesState names).column_mapping = [] := by simpa using hcm
  have hrcm' : (tablesState names).reverse_column_mapping = [] := by
    simpa using hrcm
  have hmp : ∀ pr ∈ (names.enumFrom 1).map (fun pr => (pr.2, tableTok pr.1)),
      AllWord pr.1 ∧ pr.1 ≠ [] ∧ AllWord pr.2 ∧ pr.2 ≠ [] := by
    intro pr hpr
    obtain ⟨q, hq, rfl⟩ := List.mem_map.mp hpr
    obtain ⟨h1, h2⟩ := hall q.2 (snd_mem_enumFrom _ _ _ hq)
    exact ⟨h1, h2, allWord_tableTok q.1, tableTok_ne_nil q.1⟩
  have hrp : ∀ pr ∈ (names.enumFrom 1).map (fun pr => (tableTok pr.1, pr.2)),
      AllWord pr.1 ∧ pr.1 ≠ [] ∧ AllWord pr.2 ∧ pr.2 ≠ [] := by
    intro pr hpr
    obtain ⟨q, hq, rfl⟩ := List.mem_map.mp hpr
    obtain ⟨h1, h2⟩ := hall q.2 (snd_mem_enumFrom _ _ _ hq)
    exact ⟨allWord_tableTok q.1, tableTok_ne_nil q.1, h1, h2⟩
  constructor
  · have hwords : ∀ w ∈ ws, AllWord w ∧ w ≠ [] := fun w hw => hall w (hws w hw)
    rw [mask_user_query_tablesOnly _ hcm' _ si, ht',
      subAllE_spaceJoin _ hmp ws hwords]
    show unmask_sql_query (tablesState names)
        (spaceJoin (ws.map (wordSub ((names.enumFrom 1).map
          fun pr => (pr.2, tableTok pr.1))))) = _
    rw [unmask_tablesOnly _ hrcm' _, hr']
    have hwords2 : ∀ w ∈ ws.map (wordSub ((names.enumFrom 1).map
        fun pr => (pr.2, tableTok pr.1))), AllWord w ∧ w ≠ [] := by
      intro w hw
      obtain ⟨w₀, hw₀, rfl⟩ := List.mem_map.mp hw
      obtain ⟨i, rfl⟩ := List.mem_iff_get.mp (hws w₀ hw₀)
      rw [wordSub_mask_aux tableTok lowerStr_tableTok names 1 i.1 i.2 hpw htok']
      exact ⟨allWord_tableTok _, tableTok_ne_nil _⟩
    rw [subAllE_spaceJoin _ hrp _ hwords2, List.map_map]
    have hround : ∀ w ∈ ws,
        (wordSub ((names.enumFrom 1).map fun pr => (tableTok pr.1, pr.2)) ∘
          wordSub ((names.enumFrom 1).map fun pr => (pr.2, tableTok pr.1))) w
          = w := by
      intro w hw
      obtain ⟨i, rfl⟩ := List.mem_iff_get.mp (hws w hw)
      show wordSub _ (wordSub _ (names.get i)) = names.get i
      rw [wordSub_mask_aux tableTok lowerStr_tableTok names 1 i.1 i.2 hpw htok',
        wordSub_unmask_aux tableTok lowerStr_tableTok tableTok_inj names 1 i.1 i.2 htok']
    rw [List.map_congr_left hround, List.map_id']
  · have hwords : ∀ w ∈ toks, AllWord w ∧ w ≠ [] := by
      intro w hw
      obtain ⟨k, hk, rfl⟩ := htoks w hw
      exact ⟨allWord_tableTok _, tableTok_ne_nil _⟩
    rw [unmask_tablesOnly _ hrcm' _, hr', subAllE_spaceJoin _ hrp toks hwords]
    show mask_user_query (tablesState names)
        (spaceJoin (toks.map (wordSub ((names.enumFrom 1).map
          fun pr => (tableTok pr.1, pr.2))))) si = _
    have hwords2 : ∀ w ∈ toks.map (wordSub ((names.enumFrom 1).map
        fun pr => (tableTok pr.1, pr.2))), AllWord w ∧ w ≠ [] := by
      intro w hw
      obtain ⟨w₀, hw₀, rfl⟩ := List.mem_map.mp hw
      obtain ⟨k, hk, rfl⟩ := htoks w₀ hw₀
      have harith : k + 1 = 1 + k := by omega
      rw [harith, wordSub_unmask_aux tableTok lowerStr_tableTok tableTok_inj names 1 k hk htok']
      exact hall _ (names.get_mem _ _)
    rw [mask_user_query_tablesOnly _ hcm' _ si, ht',
      subAllE_spaceJoin _ hmp _ hwords2, List.map_map]
    have hround : ∀ w ∈ toks,
        (wordSub ((names.enumFrom 1).map fun pr => (pr.2, tableTok pr.1)) ∘
          wordSub ((names.enumFrom 1).map fun pr => (tableTok pr.1, pr.2))) w
          = w := by
      intro w hw
      obtain ⟨k, hk, rfl⟩ := htoks w hw
      show wordSub _ (wordSub _ (tableTok (k + 1))) = tableTok (k + 1)
      have harith : k + 1 = 1 + k := by omega
      rw [harith, wordSub_unmask_aux tableTok lowerStr_tableTok tableTok_inj names 1 k hk htok',
        wordSub_mask_aux tableTok lowerStr_tableTok names 1 k hk hpw htok']
    rw [List.map_congr_left hround, List.map_id']

/-- Witness for the amended C3 round-trip at concrete inputs. -/
theorem C3_roundtrip_amended_witness :
    (∀ n ∈ (["employees".toList, "departments".toList] : List Str),
        AllWord n ∧ n ≠ [])
    ∧ List.Pairwise (fun a b => lowerStr a ≠ lowerStr b)
        (["employees".toList, "departments".toList] : List Str)
    ∧ (∀ n ∈ (["employees".toList, "departments".toList] : List Str),
        ¬ ("table_".toList <+: lowerStr n))
    ∧ ((mask_user_query (tablesState ["employees".toList, "departments".toList])
          (spaceJoin ["employees".toList, "departments".toList,
            "employees".toList]) []).bind
        (fun q =>
          unmask_sql_query (tablesState ["employees".toList,
            "departments".toList]) q)
      = .ok (spaceJoin ["employees".toList, "departments".toList,
          "employees".toList])
    ∧ (unmask_sql_query (tablesState ["employees".toList, "departments".toList])
          (spaceJoin [tableTok 1, tableTok 2])).bind
        (fun q =>
          mask_user_query (tablesState ["employees".toList,
            "departments".toList]) q [])
      = .ok (spaceJoin [tableTok 1, tableTok 2])) :=
  ⟨by decide, by decide, by decide,
    C3_roundtrip_amended ["employees".toList, "departments".toList] []
      (by decide) (by decide) (by decide)
      ["employees".toList, "departments".toList, "employees".toList] (by decide)
      [tableTok 1, tableTok 2]
      (by
        intro w hw
        rcases List.mem_cons.mp hw with rfl | hw
        · exact ⟨0, by decide, rfl⟩
        · rcases List.mem_singleton.mp hw with rfl
          exact ⟨1, by decide, rfl⟩)⟩

/-- Masker state reached by `get_database_schema` over two tables: mask
each table name, then its columns, in order. -/
def schemaState2 (t1 : Str) (cs1 : List Str) (t2 : Str) (cs2 : List Str) :
    MaskState :=
  maskColumns
    (mask_table_name (maskColumns (mask_table_name initMaskState t1).2 t1 cs1)
      t2).2 t2 cs2

theorem schemaState2_spec (t1 t2 : Str) (c1 c2 : Str) (r1 r2 : List Str)
    (hne : t1 ≠ t2) (hnd1 : (c1 :: r1).Nodup) (hnd2 : (c2 :: r2).Nodup) :
    (schemaState2 t1 (c1 :: r1) t2 (c2 :: r2)).table_mapping
        = [(t1, tableTok 1), (t2, tableTok 2)]
    ∧ (schemaState2 t1 (c1 :: r1) t2 (c2 :: r2)).reverse_table_mapping
        = [(tableTok 1, t1), (tableTok 2, t2)]
    ∧ (schemaState2 t1 (c1 :: r1) t2 (c2 :: r2)).column_mapping
        = [(t1, ((c1 :: r1).enumFrom 1).map fun pr => (pr.2, colTok pr.1)),
           (t2, ((c2 :: r2).enumFrom 1).map fun pr => (pr.2, colTok pr.1))]
    ∧ (schemaState2 t1 (c1 :: r1) t2 (c2 :: r2)).reverse_column_mapping
        = [(t1, ((c1 :: r1).enumFrom 1).map fun pr => (colTok pr.1, pr.2)),
           (t2, ((c2 :: r2).enumFrom 1).map fun pr => (colTok pr.1, pr.2))] := by
  set s1 : MaskState := (mask_table_name initMaskState t1).2 with hs1
  have e1t : s1.table_mapping = [(t1, tableTok 1)] := rfl
  have e1c : s1.column_mapping = [] := rfl
  have e1rc : s1.reverse_column_mapping = [] := rfl
  have e1r : s1.reverse_table_mapping = [(tableTok 1, t1)] := rfl
  set s2 : MaskState := maskColumns s1 t1 (c1 :: r1) with hs2
  obtain ⟨f1, f2, f3, f4⟩ :=
    maskColumns_fresh_cons s1 t1 c1 r1 (by rw [e1c]; rfl) (by rw [e1rc]; rfl) hnd1
  rw [e1c] at f1
  rw [e1rc] at f2
  rw [e1t] at f3
  rw [e1r] at f4
  simp only [List.nil_append] at f1 f2
  have hfind3 : dFind? s2.table_mapping t2 = none := by
    rw [hs2, f3]
    unfold dFind?
    rw [if_neg hne]
    rfl
  set s3 : MaskState := (mask_table_name s2 t2).2 with hs3
  have e3 : s3 = { s2 with
      table_mapping := s2.table_mapping
        ++ [(t2, tableTok (s2.table_mapping.length + 1))],
      reverse_table_mapping := s2.reverse_table_mapping
        ++ [(tableTok (s2.table_mapping.length + 1), t2)] } := by
    rw [hs3, mask_table_name_fresh s2 t2 hfind3]
  have hlen2 : s2.table_mapping.length = 1 := by rw [hs2, f3]; rfl
  have e3t : s3.table_mapping = [(t1, tableTok 1), (t2, tableTok 2)] := by
    rw [e3]
    simp only [hlen2]
    rw [hs2, f3]
    rfl
  have e3r : s3.reverse_table_mapping = [(tableTok 1, t1), (tableTok 2, t2)] := by
    rw [e3]
    simp only [hlen2]
    rw [hs2, f4]
    rfl
  have e3c : s3.column_mapping
      = [(t1, ((c1 :: r1).enumFrom 1).map fun pr => (pr.2, colTok pr.1))] := by
    rw [e3]
    exact f1
  have e3rc : s3.reverse_column_mapping
      = [(t1, ((c1 :: r1).enumFrom 1).map fun pr => (colTok pr.1, pr.2))] := by
    rw [e3]
    exact f2
  obtain ⟨g1, g2, g3, g4⟩ :=
    maskColumns_fresh_cons s3 t2 c2 r2
      (by rw [e3c]; unfold dFind?; rw [if_neg hne]; rfl)
      (by rw [e3rc]; unfold dFind?; rw [if_neg hne]; rfl) hnd2
  rw [e3c] at g1
  rw [e3rc] at g2
  rw [e3t] at g3
  rw [e3r] at g4
  show (maskColumns s3 t2 (c2 :: r2)).table_mapping = _
    ∧ (maskColumns s3 t2 (c2 :: r2)).reverse_table_mapping = _
    ∧ (maskColumns s3 t2 (c2 :: r2)).column_mapping = _
    ∧ (maskColumns s3 t2 (c2 :: r2)).reverse_column_mapping = _
  exact ⟨g3, g4, g1, g2⟩

theorem exceptOk_bind {α β : Type} (x : α) (f : α → Except Unit β) :
    (Except.ok x : Except Unit α) >>= f = f x := rfl

/-- C10: column tokens are scoped per table, so two distinct tables with
at least `n+1` masked columns each assign the identical token string
`col_{n+1}` to their `n`-th columns; `unmask_sql_query` iterates the
reverse column maps in table-insertion order, non-overlapping matches
consume the token at the first table, and the shared token therefore
resolves to the FIRST table's column name, regardless of which table the
token was produced for. -/
theorem C10_shared_column_tokens (t1 t2 : Str) (cs1 cs2 : List Str) (n : Nat)
    (hne : t1 ≠ t2) (hn1 : n < cs1.length) (hn2 : n < cs2.length)
    (hnd1 : cs1.Nodup) (hnd2 : cs2.Nodup)
    (htw : AllWord t1 ∧ t1 ≠ [] ∧ AllWord t2 ∧ t2 ≠ [])
    (hallc : ∀ c ∈ cs1 ++ cs2, AllWord c ∧ c ≠ [])
    (hprefc : ∀ c ∈ cs1 ++ cs2, ¬ ("col_".toList <+: lowerStr c)) :
    dFind? ((dFind? (schemaState2 t1 cs1 t2 cs2).column_mapping t1).getD [])
        (cs1.get ⟨n, hn1⟩) = some (colTok (n + 1))
    ∧ dFind? ((dFind? (schemaState2 t1 cs1 t2 cs2).column_mapping t2).getD [])
        (cs2.get ⟨n, hn2⟩) = some (colTok (n + 1))
    ∧ unmask_sql_query (schemaState2 t1 cs1 t2 cs2) (colTok (n + 1))
        = .ok (cs1.get ⟨n, hn1⟩) := by
  have htokc : ∀ c ∈ cs1 ++ cs2, ∀ j, lowerStr c ≠ lowerStr (colTok j) := by
    intro c hc j he
    apply hprefc c hc
    rw [he, lowerStr_colTok]
    exact ⟨natDecimal j, rfl⟩
  cases cs1 with
  | nil => exact absurd hn1 (by simp)
  | cons c1 r1 =>
  cases cs2 with
  | nil => exact absurd hn2 (by simp)
  | cons c2 r2 =>
  obtain ⟨st, sr, sc, src2⟩ := schemaState2_spec t1 t2 c1 c2 r1 r2 hne hnd1 hnd2
  have harith : n + 1 = 1 + n := by omega
  refine ⟨?_, ?_, ?_⟩
  · rw [sc]
    have hfound : dFind?
        [(t1, ((c1 :: r1).enumFrom 1).map fun pr => (pr.2, colTok pr.1)),
         (t2, ((c2 :: r2).enumFrom 1).map fun pr => (pr.2, colTok pr.1))] t1
        = some (((c1 :: r1).enumFrom 1).map fun pr => (pr.2, colTok pr.1)) := by
      unfold dFind?
      rw [if_pos rfl]
    rw [hfound, Option.getD_some, harith]
    exact dFind?_enumFrom colTok (c1 :: r1) 1 n hn1 hnd1
  · rw [sc]
    have hfound : dFind?
        [(t1, ((c1 :: r1).enumFrom 1).map fun pr => (pr.2, colTok pr.1)),
         (t2, ((c2 :: r2).enumFrom 1).map fun pr => (pr.2, colTok pr.1))] t2
        = some (((c2 :: r2).enumFrom 1).map fun pr => (pr.2, colTok pr.1)) := by
      simp [dFind?, hne]
    rw [hfound, Option.getD_some, harith]
    exact dFind?_enumFrom colTok (c2 :: r2) 1 n hn2 hnd2
  · unfold unmask_sql_query
    rw [sr, src2]
    have hsingle : ∀ w ∈ [colTok (n + 1)], AllWord w ∧ w ≠ [] := by
      intro w hw
      rcases List.mem_singleton.mp hw with rfl
      exact ⟨allWord_colTok _, colTok_ne_nil _⟩
    have hstep1 : subAllE [(tableTok 1, t1), (tableTok 2, t2)] (colTok (n + 1))
        = .ok (colTok (n + 1)) := by
      have hpairs : ∀ pr ∈ [(tableTok 1, t1), (tableTok 2, t2)],
          AllWord pr.1 ∧ pr.1 ≠ [] ∧ AllWord pr.2 ∧ pr.2 ≠ [] := by
        intro pr hpr
        rcases List.mem_cons.mp hpr with rfl | hpr
        · exact ⟨allWord_tableTok 1, tableTok_ne_nil 1, htw.1, htw.2.1⟩
        · rcases List.mem_singleton.mp hpr with rfl
          exact ⟨allWord_tableTok 2, tableTok_ne_nil 2, htw.2.2.1, htw.2.2.2⟩
      have h1 : subAllE [(tableTok 1, t1), (tableTok 2, t2)] (colTok (n + 1))
          = .ok (wordSub [(tableTok 1, t1), (tableTok 2, t2)] (colTok (n + 1))) :=
        subAllE_spaceJoin _ hpairs [colTok (n + 1)] hsingle
      rw [h1]
      have h2 : wordSub [(tableTok 1, t1), (tableTok 2, t2)] (colTok (n + 1))
          = colTok (n + 1) := by
        apply wordSub_skip
        intro pr hpr
        rcases List.mem_cons.mp hpr with rfl | hpr
        · rw [lowerStr_colTok, lowerStr_tableTok]
          exact colTok_ne_tableTok _ _
        · rcases List.mem_singleton.mp hpr with rfl
          rw [lowerStr_colTok, lowerStr_tableTok]
          exact colTok_ne_tableTok _ _
      rw [h2]
    rw [hstep1]
    simp only [exceptOk_bind, List.foldlM_cons, List.foldlM_nil]
    have hpairs1 : ∀ pr ∈ ((c1 :: r1).enumFrom 1).map
        (fun pr => (colTok pr.1, pr.2)),
        AllWord pr.1 ∧ pr.1 ≠ [] ∧ AllWord pr.2 ∧ pr.2 ≠ [] := by
      intro pr hpr
      obtain ⟨q, hq, rfl⟩ := List.mem_map.mp hpr
      obtain ⟨ha, hb⟩ := hallc q.2
        (List.mem_append.mpr (Or.inl (snd_mem_enumFrom _ _ _ hq)))
      exact ⟨allWord_colTok q.1, colTok_ne_nil q.1, ha, hb⟩
    have hstep2 : subAllE (((c1 :: r1).enumFrom 1).map
        fun pr => (colTok pr.1, pr.2)) (colTok (n + 1))
        = .ok ((c1 :: r1).get ⟨n, hn1⟩) := by
      have h1 : subAllE (((c1 :: r1).enumFrom 1).map
          fun pr => (colTok pr.1, pr.2)) (colTok (n + 1))
          = .ok (wordSub (((c1 :: r1).enumFrom 1).map
              fun pr => (colTok pr.1, pr.2)) (colTok (n + 1))) :=
        subAllE_spaceJoin _ hpairs1 [colTok (n + 1)] hsingle
      rw [h1, harith]
      rw [wordSub_unmask_aux colTok lowerStr_colTok colTok_inj (c1 :: r1) 1 n hn1
        (fun c hc j => htokc c (List.mem_append.mpr (Or.inl hc)) j)]
    rw [hstep2]
    simp only [exceptOk_bind]
    have hpairs2 : ∀ pr ∈ ((c2 :: r2).enumFrom 1).map
        (fun pr => (colTok pr.1, pr.2)),
        AllWord pr.1 ∧ pr.1 ≠ [] ∧ AllWord pr.2 ∧ pr.2 ≠ [] := by
      intro pr hpr
      obtain ⟨q, hq, rfl⟩ := List.mem_map.mp hpr
      obtain ⟨ha, hb⟩ := hallc q.2
        (List.mem_append.mpr (Or.inr (snd_mem_enumFrom _ _ _ hq)))
      exact ⟨allWord_colTok q.1, colTok_ne_nil q.1, ha, hb⟩
    have hmem1 : (c1 :: r1).get ⟨n, hn1⟩ ∈ c1 :: r1 := (c1 :: r1).get_mem _ _
    have hstep3 : subAllE (((c2 :: r2).enumFrom 1).map
        fun pr => (colTok pr.1, pr.2)) ((c1 :: r1).get ⟨n, hn1⟩)
        = .ok ((c1 :: r1).get ⟨n, hn1⟩) := by
      have h1 : subAllE (((c2 :: r2).enumFrom 1).map
          fun pr => (colTok pr.1, pr.2)) ((c1 :: r1).get ⟨n, hn1⟩)
          = .ok (wordSub (((c2 :: r2).enumFrom 1).map
              fun pr => (colTok pr.1, pr.2)) ((c1 :: r1).get ⟨n, hn1⟩)) :=
        subAllE_spaceJoin _ hpairs2 [(c1 :: r1).get ⟨n, hn1⟩]
          (by
            intro w hw
            rcases List.mem_singleton.mp hw with rfl
            exact hallc _ (List.mem_append.mpr (Or.inl hmem1)))
      rw [h1]
      have h2 : wordSub (((c2 :: r2).enumFrom 1).map
          fun pr => (colTok pr.1, pr.2)) ((c1 :: r1).get ⟨n, hn1⟩)
          = (c1 :: r1).get ⟨n, hn1⟩ := by
        apply wordSub_skip
        intro pr hpr
        obtain ⟨q, hq, rfl⟩ := List.mem_map.mp hpr
        exact htokc _ (List.mem_append.mpr (Or.inl hmem1)) q.1
      rw [h2]
    rw [hstep3]
    simp only [exceptOk_bind]
    rfl

/-- Witness for C10 at concrete inputs. -/
theorem C10_shared_column_tokens_witness :
    ("employees".toList ≠ "departments".toList)
    ∧ (["name".toList, "email".toList] : List Str).Nodup
    ∧ (["dept".toList, "city".toList] : List Str).Nodup
    ∧ (dFind? ((dFind? (schemaState2 "employees".toList
          ["name".toList, "email".toList] "departments".toList
          ["dept".toList, "city".toList]).column_mapping
          "employees".toList).getD [])
        ((["name".toList, "email".toList] : List Str).get
          ⟨1, by decide⟩) = some (colTok 2)
    ∧ dFind? ((dFind? (schemaState2 "employees".toList
          ["name".toList, "email".toList] "departments".toList
          ["dept".toList, "city".toList]).column_mapping
          "departments".toList).getD [])
        ((["dept".toList, "city".toList] : List Str).get
          ⟨1, by decide⟩) = some (colTok 2)
    ∧ unmask_sql_query (schemaState2 "employees".toList
          ["name".toList, "email".toList] "departments".toList
          ["dept".toList, "city".toList]) (colTok 2)
        = .ok ((["name".toList, "email".toList] : List Str).get ⟨1, by decide⟩)) :=
  ⟨by decide, by decide, by decide,
    C10_shared_column_tokens "employees".toList "departments".toList
      ["name".toList, "email".toList] ["dept".toList, "city".toList] 1
      (by decide) (by decide) (by decide) (by decide) (by decide)
      ⟨by decide, by decide, by decide, by decide⟩ (by decide) (by decide)⟩

/-! ## DataQualityChecker value predicates (org_1_2907.py lines 776-834)

The SQLite data store is modelled per field: the column is a
`List (Option Str)` of TEXT values (`none` = SQL NULL).  Result messages
(human-readable f-strings with counts and float formatting) are not
modelled; claims concern `check_type` and `status` only.  Python `float`
arithmetic is modelled with exact rationals; `inf`/`nan` parse as numeric
(as `float()` accepts them) but their value is modelled as 0 — no claim
depends on non-finite values or rounding. -/

def isPySpace (c : Char) : Bool :=
  c == ' ' || c == '\t' || c == '\n' || c == '\r' ||
    c == Char.ofNat 11 || c == Char.ofNat 12

/-- Python `str.strip()` (ASCII whitespace). -/
def pyStrip (s : Str) : Str :=
  ((s.dropWhile isPySpace).reverse.dropWhile isPySpace).reverse

def isAsciiAlpha (c : Char) : Bool := c.isAlpha

/-- Python `str.upper()` (ASCII). -/
def pyUpper (s : Str) : Str := s.map Char.toUpper

/-- Digit run with optional single underscores between digits, as accepted
inside Python float literals (`1_000`). -/
def udTail : Str → Bool
  | [] => true
  | '_' :: rest =>
    match rest with
    | [] => false
    | c :: r => c.isDigit && udTail r
  | c :: rest => c.isDigit && udTail rest

def validUD (s : Str) : Bool :=
  match s with
  | [] => false
  | c :: rest => c.isDigit && udTail rest

/-- Split a text at the first occurrence of a character satisfying `p`:
returns `(before, after-with-match)`. -/
def breakAt (p : Char → Bool) (s : Str) : Str × Str :=
  (s.takeWhile (fun c => !(p c)), s.dropWhile (fun c => !(p c)))

/-- The mantissa part of a Python float literal: `D`, `D.`, `.D` or `D.D`
with `D` an underscore-digit run. -/
def validMantissa (s : Str) : Bool :=
  let (ip, rest) := breakAt (· == '.') s
  match rest with
  | [] => validUD ip
  | _ :: fp =>
    if fp.isEmpty then validUD ip
    else if ip.isEmpty then validUD fp
    else validUD ip && validUD fp

/-- Python `float(s)` acceptance after the optional sign: `inf`,
`infinity`, `nan` (case-insensitive) or mantissa with optional exponent. -/
def validFloatBody (s : Str) : Bool :=
  if lowerStr s = "inf".toList ∨ lowerStr s = "infinity".toList
      ∨ lowerStr s = "nan".toList then true
  else
    let (mant, rest) := breakAt (fun c => c == 'e' || c == 'E') s
    match rest with
    | [] => validMantissa mant
    | _ :: ex =>
      let ex' := if ex ≠ [] ∧ (ex.headD ' ' = '+' ∨ ex.headD ' ' = '-')
        then ex.tail else ex
      validMantissa mant && validUD ex'

/-- `DataQualityChecker._is_numeric` (line 776): `float(value)` succeeds.
`float()` also strips surrounding whitespace. -/
def pyFloatOk (s : Str) : Bool :=
  let s := pyStrip s
  match s with
  | [] => false
  | c :: rest =>
    if c = '+' ∨ c = '-' then validFloatBody rest else validFloatBody s

/-- Value of an accepted finite Python float literal, as an exact
rational; `inf`/`nan` are modelled as 0, unparseable input as 0. -/
def pyFloatVal (s : Str) : Rat :=
  let s := pyStrip s
  let (sgn, body) : Rat × Str :=
    match s with
    | '+' :: rest => (1, rest)
    | '-' :: rest => (-1, rest)
    | _ => (1, s)
  if lowerStr body = "inf".toList ∨ lowerStr body = "infinity".toList
      ∨ lowerStr body = "nan".toList then 0
  else
    let (mant, erest) := breakAt (fun c => c == 'e' || c == 'E') body
    let (ip, frest) := breakAt (· == '.') mant
    let fp := frest.tail
    let digits := (ip ++ fp).filter (· ≠ '_')
    let base : Rat := (decVal digits : Rat) / (10 : Rat) ^ (fp.filter (· ≠ '_')).length
    match erest with
    | [] => sgn * base
    | _ :: ex =>
      let (esgn, eds) : Bool × Str :=
        match ex with
        | '-' :: r => (true, r)
        | '+' :: r => (false, r)
        | _ => (false, ex)
      let ev := decVal (eds.filter (· ≠ '_'))
      if esgn then sgn * base / (10 : Rat) ^ ev else sgn * base * (10 : Rat) ^ ev

def isLocalChar (c : Char) : Bool :=
  c.isAlpha || c.isDigit || c == '.' || c == '_' || c == '%' ||
    c == '+' || c == '-'

def isDomainChar (c : Char) : Bool :=
  c.isAlpha || c.isDigit || c == '.' || c == '-'

/-- `DataQualityChecker._is_valid_email` (line 783): the regex
`^[a-zA-Z0-9._%+-]+@[a-zA-Z0-9.-]+\.[a-zA-Z]{2,}$`.  With backtracking
this matches iff the text splits at its (unique) `@` into a nonempty local
part over the local class and a domain that splits at its last `.` into a
nonempty run of domain characters and an alphabetic TLD of length ≥ 2. -/
def is_valid_email (email : Str) : Bool :=
  let (l, rest) := breakAt (· == '@') email
  match rest with
  | [] => false
  | _ :: r =>
    let rrev := r.reverse
    let (tldRev, dRest) := breakAt (· == '.') rrev
    match dRest with
    | [] => false
    | _ :: dRev =>
      let d := dRev.reverse
      let tld := tldRev.reverse
      !l.isEmpty && l.all isLocalChar && !d.isEmpty && d.all isDomainChar &&
        decide (2 ≤ tld.length) && tld.all isAsciiAlpha

/-- `DataQualityChecker._is_valid_phone` (line 787): strip everything but
digits and `+`; length 10-15; then `^\+?[1-9]\d{9,14}$`. -/
def is_valid_phone (phone : Str) : Bool :=
  let cleaned := phone.filter (fun c => c.isDigit || c == '+')
  if cleaned.length < 10 ∨ 15 < cleaned.length then false
  else
    let core := match cleaned with
      | '+' :: r => r
      | _ => cleaned
    match core with
    | [] => false
    | c :: rest =>
      ('1' ≤ c && c ≤ '9') && rest.all Char.isDigit &&
        decide (9 ≤ rest.length) && decide (rest.length ≤ 14)

/-- Split on every occurrence of `sep` (like Python `re`-free splitting;
used to decompose the fixed-separator `strptime` formats). -/
def splitOnChar (sep : Char) : Str → List Str
  | [] => [[]]
  | c :: rest =>
    let r := splitOnChar sep rest
    if c = sep then [] :: r
    else
      match r with
      | [] => [[c]]
      | h :: t => (c :: h) :: t

/-- `strptime` `%Y`: exactly four digits. -/
def isYearStr (s : Str) : Bool := decide (s.length = 4) && s.all Char.isDigit

def strNatVal (s : Str) : Nat := decVal s

/-- `strptime` `%m`: `1[0-2]|0[1-9]|[1-9]`. -/
def isMonthStr (s : Str) : Bool :=
  s.all Char.isDigit &&
    ((decide (s.length = 1) && decide (1 ≤ strNatVal s)) ||
     (decide (s.length = 2) && decide (1 ≤ strNatVal s) &&
       decide (strNatVal s ≤ 12)))

/-- `strptime` `%d`: `3[01]|[12]\d|0[1-9]|[1-9]`. -/
def isDayStr (s : Str) : Bool :=
  s.all Char.isDigit &&
    ((decide (s.length = 1) && decide (1 ≤ strNatVal s)) ||
     (decide (s.length = 2) && decide (1 ≤ strNatVal s) &&
       decide (strNatVal s ≤ 31)))

/-- `strptime` `%H`: `2[0-3]|[0-1]\d|\d`. -/
def isHourStr (s : Str) : Bool :=
  s.all Char.isDigit &&
    (decide (s.length = 1) ||
     (decide (s.length = 2) && decide (strNatVal s ≤ 23)))

/-- `strptime` `%M` / `%S`: `[0-5]\d|\d`. -/
def isMinSecStr (s : Str) : Bool :=
  s.all Char.isDigit &&
    (decide (s.length = 1) ||
     (decide (s.length = 2) && decide (strNatVal s ≤ 59)))

def isLeapYear (y : Nat) : Bool :=
  (y % 4 = 0 && y % 100 ≠ 0) || y % 400 = 0

def daysInMonth (y m : Nat) : Nat :=
  if m = 2 then (if isLeapYear y then 29 else 28)
  else if m = 4 ∨ m = 6 ∨ m = 9 ∨ m = 11 then 30
  else 31

/-- `datetime(y, m, d)` construction succeeds: `strptime` validates the
calendar date after the regex match (year ≥ 1 is `datetime.MINYEAR`). -/
def validYMD (ys ms ds : Str) : Bool :=
  isYearStr ys && isMonthStr ms && isDayStr ds &&
    decide (1 ≤ strNatVal ys) &&
    decide (strNatVal ds ≤ daysInMonth (strNatVal ys) (strNatVal ms))

def validYM (ys ms : Str) : Bool :=
  isYearStr ys && isMonthStr ms && decide (1 ≤ strNatVal ys)

def validY (ys : Str) : Bool := isYearStr ys && decide (1 ≤ strNatVal ys)

/-- One `strptime` format over the fixed-separator shapes used here. -/
def matchFmtYMD (sep : Char) (s : Str) : Bool :=
  match splitOnChar sep s with
  | [a, b, c] => validYMD a b c
  | _ => false

def matchFmtMDY (sep : Char) (s : Str) : Bool :=
  match splitOnChar sep s with
  | [a, b, c] => validYMD c a b
  | _ => false

def matchFmtDMY (sep : Char) (s : Str) : Bool :=
  match splitOnChar sep s with
  | [a, b, c] => validYMD c b a
  | _ => false

def matchFmtYMDHMS (s : Str) : Bool :=
  match splitOnChar ' ' s with
  | [d, t] =>
    (match splitOnChar '-' d, splitOnChar ':' t with
     | [a, b, c], [h, mi, sec] =>
       validYMD a b c && isHourStr h && isMinSecStr mi && isMinSecStr sec
     | _, _ => false)
  | _ => false

/-- `DataQualityChecker._is_valid_date` (line 794): try the format list in
order; any success means valid. -/
def is_valid_date (s : Str) : Bool :=
  matchFmtYMD '-' s ||                -- %Y-%m-%d
  matchFmtMDY '/' s ||                -- %m/%d/%Y
  matchFmtDMY '/' s ||                -- %d/%m/%Y
  matchFmtYMDHMS s ||                 -- %Y-%m-%d %H:%M:%S
  matchFmtMDY '-' s ||                -- %m-%d-%Y
  matchFmtDMY '-' s ||                -- %d-%m-%Y
  matchFmtYMD '/' s ||                -- %Y/%m/%d
  matchFmtDMY '.' s ||                -- %d.%m.%Y
  validY s ||                         -- %Y
  (match splitOnChar '/' s with       -- %m/%Y
   | [a, b] => isMonthStr a && validY b
   | _ => false) ||
  (match splitOnChar '-' s with       -- %Y-%m
   | [a, b] => validYM a b
   | _ => false)

def isAllowedSpecial (c : Char) : Bool :=
  c.isAlpha || c.isDigit || isPySpace c || c == '.' || c == ',' ||
    c == '@' || c == '_' || c == '-'

/-- `DataQualityChecker._has_special_characters` (line 809): not a full
match of `^[a-zA-Z0-9\s.,@_-]+$`. -/
def has_special_characters (text : Str) : Bool :=
  !(!text.isEmpty && text.all isAllowedSpecial)

/-- `DataQualityChecker._has_non_ascii_characters` (line 826). -/
def has_non_ascii_characters (text : Str) : Bool :=
  text.any (fun c => decide (128 ≤ c.toNat))

def isHexUpper (c : Char) : Bool := c.isDigit || ('A' ≤ c && c ≤ 'F')

def isUpperAlpha (c : Char) : Bool := c.isUpper

/-- `DataQualityChecker._looks_like_system_code` (line 813): the four
patterns, applied to the uppercased code. -/
def looks_like_system_code (code : Str) : Bool :=
  let u := pyUpper code
  (match splitOnChar '-' u with
   | [a, b, c, d, e] =>
     decide (a.length = 8) && decide (b.length = 4) && decide (c.length = 4) &&
       decide (d.length = 4) && decide (e.length = 12) &&
       (a ++ b ++ c ++ d ++ e).all isHexUpper
   | _ => false) ||
  (let (ls, rest) := breakAt (fun c => !(isUpperAlpha c)) u
   decide (2 ≤ ls.length) && decide (ls.length ≤ 3) && !rest.isEmpty &&
     rest.all Char.isDigit && decide (3 ≤ rest.length)) ||
  (decide (6 ≤ u.length) && u.all Char.isDigit) ||
  (decide (8 ≤ u.length) && u.all (fun c => isUpperAlpha c || c.isDigit))

/-! ## _run_field_checks (org_1_2907.py lines 178-723) -/

inductive Status where
  | PASS | FAIL | WARNING | ERROR | INFO
deriving DecidableEq

/-- One result dict (the human-readable `message` value is not
modelled). -/
structure CheckRes where
  table : Str
  field : Str
  check_type : String
  status : Status
deriving DecidableEq

/-- The per-field rule flags parsed by `load_checks_config`
(lines 154-169). -/
structure FieldChecks where
  description : String
  special_characters_check : Bool
  null_check : Bool
  blank_check : Bool
  max_value_check : Bool
  min_value_check : Bool
  max_count_check : Bool
  email_check : Bool
  numeric_check : Bool
  system_codes_check : Bool
  language_check : Bool
  phone_number_check : Bool
  duplicate_check : Bool
  date_check : Bool
deriving DecidableEq

/-- `SELECT COUNT(*) WHERE field IS NULL`. -/
def nullCount (values : List (Option Str)) : Nat :=
  (values.filter (fun v => v.isNone)).length

/-- `SELECT COUNT(*) WHERE field = ''` (NULL compares unknown, excluded). -/
def blankCount (values : List (Option Str)) : Nat :=
  (values.filter (fun v => v = some [])).length

/-- Rows `WHERE field IS NOT NULL AND field != ''`, in table order. -/
def nnbValues (values : List (Option Str)) : List Str :=
  (values.filterMap id).filter (fun v => v ≠ [])

/-- Rows `WHERE field IS NOT NULL`, in table order. -/
def nonNullValues (values : List (Option Str)) : List Str :=
  values.filterMap id

/-- `SELECT DISTINCT` modelled as first-occurrence deduplication. -/
def distinctFirst (l : List Str) : List Str :=
  l.foldl (fun acc x => if x ∈ acc then acc else acc ++ [x]) []

def distinctFirstOpt (l : List (Option Str)) : List (Option Str) :=
  l.foldl (fun acc x => if x ∈ acc then acc else acc ++ [x]) []

def nullSeg (tn fn : Str) (checks : FieldChecks)
    (values : List (Option Str)) : List CheckRes :=
  if checks.null_check then
    if 0 < nullCount values then [⟨tn, fn, "null_check", .FAIL⟩]
    else [⟨tn, fn, "null_check", .PASS⟩]
  else []

def blankSeg (tn fn : Str) (checks : FieldChecks)
    (values : List (Option Str)) : List CheckRes :=
  if checks.blank_check then
    if 0 < blankCount values then [⟨tn, fn, "blank_check", .FAIL⟩]
    else [⟨tn, fn, "blank_check", .PASS⟩]
  else []

/-- Shared shape of the email / phone / date / numeric / special-character
and language checks: evaluated only when a non-null non-blank value
exists; FAIL iff some stripped value is offending. -/
def predSeg (tn fn : Str) (enabled : Bool) (ct : String)
    (offending : Str → Bool) (values : List (Option Str)) : List CheckRes :=
  if enabled then
    let nnb := nnbValues values
    if 0 < nnb.length then
      if (nnb.map pyStrip).any offending then [⟨tn, fn, ct, .FAIL⟩]
      else [⟨tn, fn, ct, .PASS⟩]
    else []
  else []

def duplicateSeg (tn fn : Str) (checks : FieldChecks)
    (values : List (Option Str)) : List CheckRes :=
  if checks.duplicate_check then
    if (distinctFirst (nonNullValues values)).any
        (fun v => 2 ≤ (nonNullValues values).count v) then
      [⟨tn, fn, "duplicate_check", .FAIL⟩]
    else [⟨tn, fn, "duplicate_check", .PASS⟩]
  else []

def sysCodesSeg (tn fn : Str) (checks : FieldChecks)
    (values : List (Option Str)) (valid_codes : List Str) : List CheckRes :=
  if checks.system_codes_check then
    let nnb := nnbValues values
    if 0 < nnb.length then
      let distinct := distinctFirst nnb
      let invalid := distinct.filter (fun v =>
        let code := pyUpper (pyStrip v)
        if valid_codes ≠ [] then
          decide (code ∉ valid_codes.map pyUpper)
        else !looks_like_system_code code)
      if 0 < invalid.length then [⟨tn, fn, "system_codes_check", .FAIL⟩]
      else [⟨tn, fn, "system_codes_check", .PASS⟩]
    else [⟨tn, fn, "system_codes_check", .WARNING⟩]
  else []

def sumRat (l : List Rat) : Rat := l.foldl (· + ·) 0

def maxRat (l : List Rat) : Rat :=
  match l with
  | [] => 0
  | x :: xs => xs.foldl max x

def minRat (l : List Rat) : Rat :=
  match l with
  | [] => 0
  | x :: xs => xs.foldl min x

/-- The `max_value_check` body (lines 555-628), lexically nested inside
the `max_count_check` branch in the source. -/
def maxValueBody (tn fn : Str) (values : List (Option Str)) : List CheckRes :=
  let nnb := nnbValues values
  if 0 < nnb.length then
    let stripped := nnb.map pyStrip
    let numeric_values := (stripped.filter pyFloatOk).map pyFloatVal
    let text_values := stripped.filter (fun v => !pyFloatOk v)
    (if numeric_values ≠ [] then
      let mx := maxRat numeric_values
      let avg := sumRat numeric_values / numeric_values.length
      if avg * 10 < mx then [⟨tn, fn, "max_value_check", .WARNING⟩]
      else [⟨tn, fn, "max_value_check", .PASS⟩]
    else [])
    ++ (if text_values ≠ [] then [⟨tn, fn, "max_value_check", .INFO⟩] else [])
    ++ (if numeric_values ≠ [] ∧ text_values ≠ [] then
          [⟨tn, fn, "max_value_check", .INFO⟩]
        else if numeric_values = [] ∧ text_values = [] then
          [⟨tn, fn, "max_value_check", .WARNING⟩]
        else [])
  else []

/-- The `min_value_check` body (lines 630-711), also nested inside the
`max_count_check` branch. -/
def minValueBody (tn fn : Str) (values : List (Option Str)) : List CheckRes :=
  let nnb := nnbValues values
  if 0 < nnb.length then
    let stripped := nnb.map pyStrip
    let numeric_values := (stripped.filter pyFloatOk).map pyFloatVal
    let text_values := stripped.filter (fun v => !pyFloatOk v)
    (if numeric_values ≠ [] then
      let mn := minRat numeric_values
      let avg := sumRat numeric_values / numeric_values.length
      if mn < 0 then [⟨tn, fn, "min_value_check", .WARNING⟩]
      else if mn < avg * (1 / 10) ∧ 0 < avg then
        [⟨tn, fn, "min_value_check", .WARNING⟩]
      else [⟨tn, fn, "min_value_check", .PASS⟩]
    else [])
    ++ (if text_values ≠ [] then [⟨tn, fn, "min_value_check", .INFO⟩] else [])
    ++ (if numeric_values ≠ [] ∧ text_values ≠ [] then
          [⟨tn, fn, "min_value_check", .INFO⟩]
        else if numeric_values = [] ∧ text_values = [] then
          [⟨tn, fn, "min_value_check", .WARNING⟩]
        else [])
  else []

/-- Lines 533-711: the `max_count_check` segment.  The `max_value_check`
and `min_value_check` evaluations are lexically nested inside this
branch in the source, so they run only when `max_count_check` is
enabled. -/
def maxCountSeg (tn fn : Str) (checks : FieldChecks)
    (values : List (Option Str)) : List CheckRes :=
  if checks.max_count_check then
    (if 0 < (nnbValues values).length then
      [⟨tn, fn, "max_count_check", .INFO⟩]
    else [])
    ++ (if checks.max_value_check then maxValueBody tn fn values else [])
    ++ (if checks.min_value_check then minValueBody tn fn values else [])
  else []

/-- `DataQualityChecker._run_field_checks` (lines 178-723).  The column's
values stand in for the queried table; `col_exists` models
`_column_exists`; `valid_codes` is `_get_valid_system_codes`'s result for
this (table, field).  The pure model has no failing database, so the
`sqlite3.Error` → `database_error` path does not arise. -/
def run_field_checks (tn fn : Str) (checks : FieldChecks) (col_exists : Bool)
    (values : List (Option Str)) (valid_codes : List Str) : List CheckRes :=
  if !col_exists then [⟨tn, fn, "column_existence", .FAIL⟩]
  else if values.length = 0 then [⟨tn, fn, "data_existence", .WARNING⟩]
  else
    nullSeg tn fn checks values
    ++ blankSeg tn fn checks values
    ++ predSeg tn fn checks.email_check "email_check"
        (fun v => !is_valid_email v) values
    ++ predSeg tn fn checks.phone_number_check "phone_number_check"
        (fun v => !is_valid_phone v) values
    ++ predSeg tn fn checks.date_check "date_check"
        (fun v => !is_valid_date v) values
    ++ predSeg tn fn checks.numeric_check "numeric_check"
        (fun v => !pyFloatOk v) values
    ++ duplicateSeg tn fn checks values
    ++ predSeg tn fn checks.special_characters_check "special_characters_check"
        (fun v => has_special_characters v) values
    ++ sysCodesSeg tn fn checks values valid_codes
    ++ predSeg tn fn checks.language_check "language_check"
        (fun v => has_non_ascii_characters v) values
    ++ maxCountSeg tn fn checks values

/-! ## C2: rule independence in _run_field_checks -/

/-- A configuration enabling only `max_value_check`. -/
def c2Checks : FieldChecks :=
  ⟨"", false, false, false, true, false, false, false, false, false, false,
   false, false, false⟩

/-- C2.  Counterexample to the claim that `max_value_check` is evaluated
independently of the other flags: with only `max_value_check` enabled,
an existing column and one non-null non-blank value, the run produces
no results at all — the `max_value_check` body is lexically nested
inside the `max_count_check` branch (source lines 555-628 inside the
line-534 `if`). -/
theorem C2_independence_counterexample :
    c2Checks.max_value_check = true
    ∧ nnbValues [some ['1']] ≠ []
    ∧ run_field_checks ['t'] ['f'] c2Checks true [some ['1']] [] = [] :=
  ⟨rfl, by decide, rfl⟩

theorem filter_not_ne_nil {α : Type} (p : α → Bool) (l : List α)
    (hl : l ≠ []) (h : l.filter p = []) :
    l.filter (fun x => !p x) ≠ [] := by
  match l with
  | [] => exact absurd rfl hl
  | x :: xs =>
    by_cases hp : p x
    · exact absurd h (by simp [List.filter_cons, hp])
    · have : x ∈ List.filter (fun x => !p x) (x :: xs) := by
        simp [List.mem_filter, hp]
      exact List.ne_nil_of_mem this
theorem maxValueBody_has (tn fn : Str) (values : List (Option Str))
    (h : nnbValues values ≠ []) :
    ∃ r ∈ maxValueBody tn fn values, r.check_type = "max_value_check" := by
  unfold maxValueBody
  have hlen : 0 < (nnbValues values).length := List.length_pos.mpr h
  simp only [hlen, if_pos]
  set stripped := (nnbValues values).map pyStrip with hstr
  have hstr_ne : stripped ≠ [] := by
    rw [hstr]; simpa using h
  set nv := (stripped.filter pyFloatOk).map pyFloatVal with hnv
  by_cases hnum : nv = []
  · have htext : stripped.filter (fun v => !pyFloatOk v) ≠ [] := by
      apply filter_not_ne_nil pyFloatOk stripped hstr_ne
      simpa [hnv] using hnum
    refine ⟨⟨tn, fn, "max_value_check", .INFO⟩, ?_, rfl⟩
    apply List.mem_append_left
    apply List.mem_append_right
    simp [htext]
  · by_cases hm : sumRat nv / (nv.length : Rat) * 10 < maxRat nv
    · refine ⟨⟨tn, fn, "max_value_check", .WARNING⟩, ?_, rfl⟩
      apply List.mem_append_left
      apply List.mem_append_left
      simp [hnum, hm]
    · refine ⟨⟨tn, fn, "max_value_check", .PASS⟩, ?_, rfl⟩
      apply List.mem_append_left
      apply List.mem_append_left
      simp [hnum, hm]

theorem minValueBody_has (tn fn : Str) (values : List (Option Str))
    (h : nnbValues values ≠ []) :
    ∃ r ∈ minValueBody tn fn values, r.check_type = "min_value_check" := by
  unfold minValueBody
  have hlen : 0 < (nnbValues values).length := List.length_pos.mpr h
  simp only [hlen, if_pos]
  set stripped := (nnbValues values).map pyStrip with hstr
  have hstr_ne : stripped ≠ [] := by
    rw [hstr]; simpa using h
  set nv := (stripped.filter pyFloatOk).map pyFloatVal with hnv
  by_cases hnum : nv = []
  · have htext : stripped.filter (fun v => !pyFloatOk v) ≠ [] := by
      apply filter_not_ne_nil pyFloatOk stripped hstr_ne
      simpa [hnv] using hnum
    refine ⟨⟨tn, fn, "min_value_check", .INFO⟩, ?_, rfl⟩
    apply List.mem_append_left
    apply List.mem_append_right
    simp [htext]
  · by_cases h0 : minRat nv < 0
    · refine ⟨⟨tn, fn, "min_value_check", .WARNING⟩, ?_, rfl⟩
      apply List.mem_append_left
      apply List.mem_append_left
      simp [hnum, h0]
    · by_cases h1 : minRat nv < sumRat nv / (nv.length : Rat) * (1 / 10)
          ∧ 0 < sumRat nv / (nv.length : Rat)
      · refine ⟨⟨tn, fn, "min_value_check", .WARNING⟩, ?_, rfl⟩
        apply List.mem_append_left
        apply List.mem_append_left
        rw [one_div] at h1
        simp [hnum, h0, h1]
      · refine ⟨⟨tn, fn, "min_value_check", .PASS⟩, ?_, rfl⟩
        apply List.mem_append_left
        apply List.mem_append_left
        rw [one_div] at h1
        simp [hnum, h0, h1]

theorem nullSeg_ct (tn fn : Str) (c : FieldChecks) (v : List (Option Str))
    (r : CheckRes) (hr : r ∈ nullSeg tn fn c v) :
    r.check_type = "null_check" := by
  simp only [nullSeg] at hr
  split_ifs at hr <;> simp_all

theorem blankSeg_ct (tn fn : Str) (c : FieldChecks) (v : List (Option Str))
    (r : CheckRes) (hr : r ∈ blankSeg tn fn c v) :
    r.check_type = "blank_check" := by
  simp only [blankSeg] at hr
  split_ifs at hr <;> simp_all

theorem predSeg_ct (tn fn : Str) (e : Bool) (ct : String) (off : Str → Bool)
    (v : List (Option Str)) (r : CheckRes) (hr : r ∈ predSeg tn fn e ct off v) :
    r.check_type = ct := by
  simp only [predSeg] at hr
  split_ifs at hr <;> simp_all

theorem duplicateSeg_ct (tn fn : Str) (c : FieldChecks) (v : List (Option Str))
    (r : CheckRes) (hr : r ∈ duplicateSeg tn fn c v) :
    r.check_type = "duplicate_check" := by
  simp only [duplicateSeg] at hr
  split_ifs at hr <;> simp_all

theorem sysCodesSeg_ct (tn fn : Str) (c : FieldChecks) (v : List (Option Str))
    (vc : List Str) (r : CheckRes) (hr : r ∈ sysCodesSeg tn fn c v vc) :
    r.check_type = "system_codes_check" := by
  simp only [sysCodesSeg] at hr
  split_ifs at hr <;> simp_all

theorem maxCountSeg_mem_max (tn fn : Str) (c : FieldChecks)
    (v : List (Option Str)) (r : CheckRes)
    (hc : c.max_count_check = true) (hv : c.max_value_check = true)
    (hr : r ∈ maxValueBody tn fn v) :
    r ∈ maxCountSeg tn fn c v := by
  simp only [maxCountSeg, hc, hv, if_pos, if_true]
  exact List.mem_append_left _ (List.mem_append_right _ hr)

theorem maxCountSeg_mem_min (tn fn : Str) (c : FieldChecks)
    (v : List (Option Str)) (r : CheckRes)
    (hc : c.max_count_check = true) (hv : c.min_value_check = true)
    (hr : r ∈ minValueBody tn fn v) :
    r ∈ maxCountSeg tn fn c v := by
  simp only [maxCountSeg, hc, hv, if_pos, if_true]
  exact List.mem_append_right _ hr

theorem run_field_checks_mem_last (tn fn : Str) (c : FieldChecks)
    (v : List (Option Str)) (vc : List Str) (r : CheckRes)
    (hv : v ≠ []) (hr : r ∈ maxCountSeg tn fn c v) :
    r ∈ run_field_checks tn fn c true v vc := by
  have hlen : ¬ v.length = 0 := by simpa using hv
  simp only [run_field_checks, Bool.not_true, Bool.false_eq_true, if_false,
    hlen, List.mem_append]
  tauto

/-- C2 (amended).  `max_value_check` and `min_value_check` are evaluated
only under `max_count_check`: when `max_count_check` is enabled together
with `max_value_check` (resp. `min_value_check`) and the field has a
non-null non-blank value, the run contains a result of that check_type;
when `max_count_check` is disabled, no `max_value_check` or
`min_value_check` result is ever produced, whatever the other flags. -/
theorem C2_independence_amended (tn fn : Str) (checks : FieldChecks)
    (values : List (Option Str)) (vc : List Str) (hv : values ≠ []) :
    ((checks.max_count_check = true → checks.max_value_check = true →
        nnbValues values ≠ [] →
        ∃ r ∈ run_field_checks tn fn checks true values vc,
          r.check_type = "max_value_check")
      ∧ (checks.max_count_check = true → checks.min_value_check = true →
        nnbValues values ≠ [] →
        ∃ r ∈ run_field_checks tn fn checks true values vc,
          r.check_type = "min_value_check"))
    ∧ (checks.max_count_check = false →
        ∀ r ∈ run_field_checks tn fn checks true values vc,
          r.check_type ≠ "max_value_check" ∧
          r.check_type ≠ "min_value_check") := by
  refine ⟨⟨?_, ?_⟩, ?_⟩
  · intro hc hmx hnnb
    obtain ⟨r, hr, hct⟩ := maxValueBody_has tn fn values hnnb
    exact ⟨r, run_field_checks_mem_last tn fn checks values vc r hv
      (maxCountSeg_mem_max tn fn checks values r hc hmx hr), hct⟩
  · intro hc hmn hnnb
    obtain ⟨r, hr, hct⟩ := minValueBody_has tn fn values hnnb
    exact ⟨r, run_field_checks_mem_last tn fn checks values vc r hv
      (maxCountSeg_mem_min tn fn checks values r hc hmn hr), hct⟩
  · intro hmc r hr
    have hlen : ¬ values.length = 0 := by simpa using hv
    have hmax : maxCountSeg tn fn checks values = [] := by
      simp [maxCountSeg, hmc]
    simp only [run_field_checks, Bool.not_true, Bool.false_eq_true, if_false,
      hlen, hmax, List.append_nil, List.mem_append] at hr
    rcases hr with ((((((((h | h) | h) | h) | h) | h) | h) | h) | h) | h
    · exact nullSeg_ct tn fn checks values r h ▸ ⟨by decide, by decide⟩
    · exact blankSeg_ct tn fn checks values r h ▸ ⟨by decide, by decide⟩
    · exact predSeg_ct tn fn _ _ _ values r h ▸ ⟨by decide, by decide⟩
    · exact predSeg_ct tn fn _ _ _ values r h ▸ ⟨by decide, by decide⟩
    · exact predSeg_ct tn fn _ _ _ values r h ▸ ⟨by decide, by decide⟩
    · exact predSeg_ct tn fn _ _ _ values r h ▸ ⟨by decide, by decide⟩
    · exact duplicateSeg_ct tn fn checks values r h ▸ ⟨by decide, by decide⟩
    · exact predSeg_ct tn fn _ _ _ values r h ▸ ⟨by decide, by decide⟩
    · exact sysCodesSeg_ct tn fn checks values vc r h ▸ ⟨by decide, by decide⟩
    · exact predSeg_ct tn fn _ _ _ values r h ▸ ⟨by decide, by decide⟩

/-- All checks enabled, for the C2 witness. -/
def c2AllChecks : FieldChecks :=
  ⟨"", true, true, true, true, true, true, true, true, true, true,
   true, true, true⟩

theorem C2_independence_amended_witness :
    ((∃ r ∈ run_field_checks ['t'] ['f'] c2AllChecks true [some ['1']] [],
        r.check_type = "max_value_check")
      ∧ (∃ r ∈ run_field_checks ['t'] ['f'] c2AllChecks true [some ['1']] [],
        r.check_type = "min_value_check"))
    ∧ (∀ r ∈ run_field_checks ['t'] ['f'] c2Checks true [some ['1']] [],
        r.check_type ≠ "max_value_check" ∧
        r.check_type ≠ "min_value_check") :=
  ⟨⟨(C2_independence_amended ['t'] ['f'] c2AllChecks [some ['1']] []
      (by decide)).1.1 rfl rfl (by decide),
    (C2_independence_amended ['t'] ['f'] c2AllChecks [some ['1']] []
      (by decide)).1.2 rfl rfl (by decide)⟩,
   (C2_independence_amended ['t'] ['f'] c2Checks [some ['1']] []
      (by decide)).2 rfl⟩

/-! ## _get_failing_values_from_db (org_1_2907.py lines 891-991) -/

/-- `str.count` of a value among the non-null rows of the column. -/
def valueCount (values : List (Option Str)) (v : Str) : Nat :=
  ((nonNullValues values).filter (fun x => x = v)).length

def insertByCount (p : Str × Nat) : List (Str × Nat) → List (Str × Nat)
  | [] => [p]
  | q :: l => if q.2 < p.2 then p :: q :: l else q :: insertByCount p l

/-- `ORDER BY count DESC` (ties keep first-occurrence order). -/
def sortByCountDesc (l : List (Str × Nat)) : List (Str × Nat) :=
  l.foldr insertByCount []

/-- The `failing_values` list each branch builds, before the
line-984 truncation step.  Every SELECT here carries `LIMIT 100`
(blank and duplicate: `LIMIT 50`), modelled by `take`. -/
def rawFailingValues (check_type : String) (values : List (Option Str))
    (valid_codes : List Str) : List Str :=
  if check_type == "null_check" then
    ["NULL (found ".toList ++ natDecimal (nullCount values)
      ++ " occurrences)".toList]
  else if check_type == "system_codes_check" then
    ((distinctFirst (nnbValues values)).take 100).filterMap (fun v =>
      let code := pyUpper (pyStrip v)
      let original_code := pyStrip v
      if valid_codes ≠ [] then
        if code ∉ valid_codes.map pyUpper then
          some (original_code ++ " (not in external config)".toList)
        else none
      else
        if !looks_like_system_code code then
          some (original_code ++ " (pattern mismatch)".toList)
        else none)
  else if check_type == "blank_check" then
    ((distinctFirstOpt (values.filter
        (fun v => v = some [] ∨ v = none))).take 50).map
      (fun v => match v with | none => "NULL".toList | some s => s)
  else if check_type == "email_check" then
    ((distinctFirst (nnbValues values)).take 100).filterMap (fun v =>
      if !is_valid_email (pyStrip v) then some (pyStrip v) else none)
  else if check_type == "phone_number_check" then
    ((distinctFirst (nnbValues values)).take 100).filterMap (fun v =>
      if !is_valid_phone (pyStrip v) then some (pyStrip v) else none)
  else if check_type == "date_check" then
    ((distinctFirst (nnbValues values)).take 100).filterMap (fun v =>
      if !is_valid_date (pyStrip v) then some (pyStrip v) else none)
  else if check_type == "numeric_check" then
    ((distinctFirst (nnbValues values)).take 100).filterMap (fun v =>
      if !pyFloatOk (pyStrip v) then some (pyStrip v) else none)
  else if check_type == "duplicate_check" then
    ((sortByCountDesc ((distinctFirst (nonNullValues values)).filterMap
        (fun v =>
          if 2 ≤ valueCount values v then some (v, valueCount values v)
          else none))).take 50).map
      (fun p => p.1 ++ " (appears ".toList ++ natDecimal p.2
        ++ " times)".toList)
  else if check_type == "special_characters_check" then
    ((distinctFirst (nnbValues values)).take 100).filterMap (fun v =>
      if has_special_characters (pyStrip v) then some (pyStrip v) else none)
  else []

def truncMarker : Str := "... and more (truncated to 100 values)".toList

/-- `DataQualityChecker._get_failing_values_from_db` (lines 891-991,
database-error path aside): the branch result followed by the line-984
truncation step. -/
def get_failing_values_from_db (check_type : String)
    (values : List (Option Str)) (valid_codes : List Str) : List Str :=
  let fv := rawFailingValues check_type values valid_codes
  if 100 < fv.length then fv.take 100 ++ [truncMarker] else fv

/-- A column of 150 distinct decimal strings: none is a valid email. -/
def c7Values : List (Option Str) :=
  (List.range 150).map (fun i => some (natDecimal i))

set_option maxRecDepth 10000 in
set_option maxHeartbeats 2000000 in
/-- C7.  Counterexample to the claimed 100-plus-marker truncation: the
column holds 150 distinct offending (non-email) values, yet the
email_check branch returns exactly 100 entries and no truncation
marker — its SELECT carries `LIMIT 100`, so `failing_values` can never
exceed 100 and the line-984 truncation branch is dead. -/
theorem C7_truncation_counterexample :
    ((nnbValues c7Values).filter
        (fun v => !is_valid_email (pyStrip v))).length = 150
    ∧ (get_failing_values_from_db "email_check" c7Values []).length = 100
    ∧ truncMarker ∉ get_failing_values_from_db "email_check" c7Values [] := by
  decide

set_option maxHeartbeats 1000000 in
/-- C7 (amended).  For every check type the branch list is already
capped by the SQL LIMIT at no more than 100 entries before the
truncation step, so `_get_failing_values_from_db` always returns the
branch list unchanged and no truncation marker is ever appended. -/
theorem C7_truncation_amended (ct : String) (values : List (Option Str))
    (vc : List Str) :
    (rawFailingValues ct values vc).length ≤ 100
    ∧ get_failing_values_from_db ct values vc
        = rawFailingValues ct values vc := by
  have h : (rawFailingValues ct values vc).length ≤ 100 := by
    unfold rawFailingValues
    split_ifs
    all_goals first
      | (rw [List.length_singleton]; omega)
      | (refine le_trans (List.length_filterMap_le _ _) ?_
         rw [List.length_take]; omega)
      | (rw [List.length_map, List.length_take]; omega)
      | simp
  refine ⟨h, ?_⟩
  simp only [get_failing_values_from_db]
  rw [if_neg (by omega)]

/-! ## Status counting: print_results (org_1_2907.py lines 1027-1058)
and the run_data_quality_checks endpoint (api_app.py lines 443-464) -/

structure Counts where
  total : Nat
  passed : Nat
  failed : Nat
  warnings : Nat
deriving DecidableEq

/-- One iteration of the `print_results` counting loop: the `else`
branch treats every non-PASS/FAIL/WARNING status as failed. -/
def printStep (c : Counts) (r : CheckRes) : Counts :=
  let c := { c with total := c.total + 1 }
  match r.status with
  | .PASS => { c with passed := c.passed + 1 }
  | .FAIL => { c with failed := c.failed + 1 }
  | .WARNING => { c with warnings := c.warnings + 1 }
  | _ => { c with failed := c.failed + 1 }

def print_results_counts (results : List (List CheckRes)) : Counts :=
  results.foldl (fun c tr => tr.foldl printStep c) ⟨0, 0, 0, 0⟩

/-- One iteration of the endpoint's `summary_stats` loop: ERROR and
INFO statuses increment `total_checks` but no other counter. -/
def apiStep (c : Counts) (r : CheckRes) : Counts :=
  let c := { c with total := c.total + 1 }
  match r.status with
  | .PASS => { c with passed := c.passed + 1 }
  | .FAIL => { c with failed := c.failed + 1 }
  | .WARNING => { c with warnings := c.warnings + 1 }
  | _ => c

def run_data_quality_checks_summary (results : List (List CheckRes)) : Counts :=
  results.foldl (fun c tr => tr.foldl apiStep c) ⟨0, 0, 0, 0⟩

theorem foldl_printStep_eq (l : List CheckRes) (c : Counts) :
    l.foldl printStep c =
      ⟨c.total + l.length,
       c.passed + l.countP (fun r => decide (r.status = .PASS)),
       c.failed + l.countP
         (fun r => !decide (r.status = .PASS) && !decide (r.status = .WARNING)),
       c.warnings + l.countP (fun r => decide (r.status = .WARNING))⟩ := by
  induction l generalizing c with
  | nil => cases c; simp [List.countP, List.countP.go]
  | cons r l ih =>
    simp only [List.foldl_cons, ih, List.countP_cons, List.length_cons]
    cases hs : r.status <;> simp [printStep, hs] <;> omega

theorem foldl_apiStep_eq (l : List CheckRes) (c : Counts) :
    l.foldl apiStep c =
      ⟨c.total + l.length,
       c.passed + l.countP (fun r => decide (r.status = .PASS)),
       c.failed + l.countP (fun r => decide (r.status = .FAIL)),
       c.warnings + l.countP (fun r => decide (r.status = .WARNING))⟩ := by
  induction l generalizing c with
  | nil => cases c; simp [List.countP, List.countP.go]
  | cons r l ih =>
    simp only [List.foldl_cons, ih, List.countP_cons, List.length_cons]
    cases hs : r.status <;> simp [apiStep, hs] <;> omega

theorem outer_foldl_print (L : List (List CheckRes)) (c : Counts) :
    L.foldl (fun c tr => tr.foldl printStep c) c =
      ⟨c.total + L.flatten.length,
       c.passed + L.flatten.countP (fun r => decide (r.status = .PASS)),
       c.failed + L.flatten.countP
         (fun r => !decide (r.status = .PASS) && !decide (r.status = .WARNING)),
       c.warnings + L.flatten.countP (fun r => decide (r.status = .WARNING))⟩ := by
  induction L generalizing c with
  | nil => cases c; simp [List.countP, List.countP.go]
  | cons tr L ih =>
    rw [List.foldl_cons, ih]
    simp only [foldl_printStep_eq, List.flatten_cons,
      List.countP_append, List.length_append, Counts.mk.injEq]
    omega

theorem outer_foldl_api (L : List (List CheckRes)) (c : Counts) :
    L.foldl (fun c tr => tr.foldl apiStep c) c =
      ⟨c.total + L.flatten.length,
       c.passed + L.flatten.countP (fun r => decide (r.status = .PASS)),
       c.failed + L.flatten.countP (fun r => decide (r.status = .FAIL)),
       c.warnings + L.flatten.countP (fun r => decide (r.status = .WARNING))⟩ := by
  induction L generalizing c with
  | nil => cases c; simp [List.countP, List.countP.go]
  | cons tr L ih =>
    rw [List.foldl_cons, ih]
    simp only [foldl_apiStep_eq, List.flatten_cons,
      List.countP_append, List.length_append, Counts.mk.injEq]
    omega

theorem countP_statuses_print (l : List CheckRes) :
    l.countP (fun r => decide (r.status = .PASS)) +
    l.countP
      (fun r => !decide (r.status = .PASS) && !decide (r.status = .WARNING)) +
    l.countP (fun r => decide (r.status = .WARNING)) = l.length := by
  induction l with
  | nil => simp [List.countP, List.countP.go]
  | cons r l ih =>
    simp only [List.countP_cons, List.length_cons]
    cases hs : r.status <;> simp [hs] <;> omega

theorem countP_statuses_api (l : List CheckRes) :
    l.countP (fun r => decide (r.status = .PASS)) +
    l.countP (fun r => decide (r.status = .FAIL)) +
    l.countP (fun r => decide (r.status = .WARNING)) +
    l.countP
      (fun r => decide (r.status = .ERROR) || decide (r.status = .INFO))
      = l.length := by
  induction l with
  | nil => simp [List.countP, List.countP.go]
  | cons r l ih =>
    simp only [List.countP_cons, List.length_cons]
    cases hs : r.status <;> simp [hs] <;> omega

/-- C8.  Counterexample to `total_checks = passed + failed + warnings`
for the endpoint's summary: a run whose single result carries status
ERROR (the `database_error` path) yields `total_checks = 1` while the
three tracked buckets sum to 0 — the loop has no branch for ERROR or
INFO and tracks no separate counters for them. -/
theorem C8_summary_counts_counterexample :
    (run_data_quality_checks_summary
        [[⟨['e'], ['f'], "database_error", .ERROR⟩]]).total = 1
    ∧ (run_data_quality_checks_summary
        [[⟨['e'], ['f'], "database_error", .ERROR⟩]]).passed
      + (run_data_quality_checks_summary
        [[⟨['e'], ['f'], "database_error", .ERROR⟩]]).failed
      + (run_data_quality_checks_summary
        [[⟨['e'], ['f'], "database_error", .ERROR⟩]]).warnings = 0 := by
  decide

/-- C8 (amended).  `print_results` counts every ERROR/INFO result as
failed, so its totals always satisfy `total = passed + failed +
warnings`; the endpoint's summary instead satisfies `total = passed +
failed + warnings + #ERROR/INFO results`, so the claimed identity holds
for it exactly when the run has no ERROR or INFO result. -/
theorem C8_summary_counts_amended (results : List (List CheckRes)) :
    ((print_results_counts results).total =
      (print_results_counts results).passed +
      (print_results_counts results).failed +
      (print_results_counts results).warnings)
    ∧ ((run_data_quality_checks_summary results).total =
      (run_data_quality_checks_summary results).passed +
      (run_data_quality_checks_summary results).failed +
      (run_data_quality_checks_summary results).warnings +
      results.flatten.countP
        (fun r => decide (r.status = .ERROR) || decide (r.status = .INFO))) := by
  unfold print_results_counts run_data_quality_checks_summary
  rw [outer_foldl_print, outer_foldl_api]
  have h1 := countP_statuses_print results.flatten
  have h2 := countP_statuses_api results.flatten
  dsimp only
  omega

/-! ## Config loading (org_1_2907.py lines 143-176 and 725-756) -/

/-- One CSV row of the checks configuration, with the raw flag cells. -/
structure ChecksRow where
  table_name : Str
  field_name : Str
  description : String
  special_characters_check : Str
  null_check : Str
  blank_check : Str
  max_value_check : Str
  min_value_check : Str
  max_count_check : Str
  email_check : Str
  numeric_check : Str
  system_codes_check : Str
  language_check : Str
  phone_number_check : Str
  duplicate_check : Str
  date_check : Str
deriving DecidableEq

/-- The dict literal built at lines 153-168: each flag is
`row[...] == '1'`. -/
def rowToFieldChecks (r : ChecksRow) : FieldChecks :=
  ⟨r.description,
   r.special_characters_check == ['1'],
   r.null_check == ['1'],
   r.blank_check == ['1'],
   r.max_value_check == ['1'],
   r.min_value_check == ['1'],
   r.max_count_check == ['1'],
   r.email_check == ['1'],
   r.numeric_check == ['1'],
   r.system_codes_check == ['1'],
   r.language_check == ['1'],
   r.phone_number_check == ['1'],
   r.duplicate_check == ['1'],
   r.date_check == ['1']⟩

abbrev ChecksConfig := List (Str × List (Str × FieldChecks))
abbrev SystemCodesConfig := List (Str × List (Str × List Str))

/-- Loop body of `load_checks_config`: insert an empty table dict if
absent, then overwrite the field entry. -/
def load_checks_config_step (cfg : ChecksConfig) (row : ChecksRow) :
    ChecksConfig :=
  let cfg := if !dMem cfg row.table_name
    then dSet cfg row.table_name [] else cfg
  let inner := (dFind? cfg row.table_name).getD []
  dSet cfg row.table_name
    (dSet inner row.field_name (rowToFieldChecks row))

/-- `load_checks_config` (lines 143-176): folds the rows into the
EXISTING `checks_config` — the method never resets the dict first. -/
def load_checks_config (cfg : ChecksConfig) (rows : List ChecksRow) :
    ChecksConfig :=
  rows.foldl load_checks_config_step cfg

/-- One CSV row of the system-codes configuration. -/
structure CodesRow where
  table_name : Str
  field_name : Str
  valid_codes : Str
deriving DecidableEq

/-- Line 738: split on commas, strip, drop empties. -/
def parseValidCodes (s : Str) : List Str :=
  ((splitOnChar ',' s).map pyStrip).filter (fun c => c ≠ [])

def load_system_codes_config_step (cfg : SystemCodesConfig)
    (row : CodesRow) : SystemCodesConfig :=
  let cfg := if !dMem cfg row.table_name
    then dSet cfg row.table_name [] else cfg
  let inner := (dFind? cfg row.table_name).getD []
  dSet cfg row.table_name
    (dSet inner row.field_name (parseValidCodes row.valid_codes))

/-- `load_system_codes_config` (lines 725-756): line 728 resets
`system_codes_config = {}` before the loop, so the previous state is
discarded. -/
def load_system_codes_config (_cfg : SystemCodesConfig)
    (rows : List CodesRow) : SystemCodesConfig :=
  rows.foldl load_system_codes_config_step []

/-- `checks_config[tn][fn]`, when both keys are present. -/
def checksLookup (cfg : ChecksConfig) (tn fn : Str) : Option FieldChecks :=
  (dFind? cfg tn).bind (fun inner => dFind? inner fn)

def codesLookup (cfg : SystemCodesConfig) (tn fn : Str) : Option (List Str) :=
  (dFind? cfg tn).bind (fun inner => dFind? inner fn)

/-- The last source row for a given (table, field), if any. -/
def findLastChecksRow (rows : List ChecksRow) (tn fn : Str) :
    Option ChecksRow :=
  match rows with
  | [] => none
  | r :: rest =>
    match findLastChecksRow rest tn fn with
    | some x => some x
    | none =>
      if r.table_name = tn ∧ r.field_name = fn then some r else none

def findLastCodesRow (rows : List CodesRow) (tn fn : Str) :
    Option CodesRow :=
  match rows with
  | [] => none
  | r :: rest =>
    match findLastCodesRow rest tn fn with
    | some x => some x
    | none =>
      if r.table_name = tn ∧ r.field_name = fn then some r else none

theorem dFind?_none_of_not_dMem {β : Type} (d : List (Str × β)) (k : Str)
    (h : ¬ dMem d k) : dFind? d k = none := by
  unfold dMem at h
  cases hf : dFind? d k
  · rfl
  · rw [hf] at h; simp at h

theorem checksLookup_step (cfg : ChecksConfig) (r : ChecksRow) (tn fn : Str) :
    checksLookup (load_checks_config_step cfg r) tn fn =
      if r.table_name = tn ∧ r.field_name = fn then some (rowToFieldChecks r)
      else checksLookup cfg tn fn := by
  simp only [load_checks_config_step, checksLookup]
  by_cases ht : r.table_name = tn
  · subst ht
    rw [dFind?_dSet_same]
    have hinner : (dFind? (if !dMem cfg r.table_name
        then dSet cfg r.table_name [] else cfg) r.table_name).getD
          ([] : List (Str × FieldChecks))
        = (dFind? cfg r.table_name).getD [] := by
      by_cases hm : dMem cfg r.table_name
      · simp [hm]
      · simp only [hm, Bool.not_false, if_true, dFind?_dSet_same,
          dFind?_none_of_not_dMem cfg r.table_name hm]
        rfl
    rw [hinner]
    by_cases hf : r.field_name = fn
    · subst hf
      simp [dFind?_dSet_same]
    · rw [if_neg (by tauto)]
      simp only [Option.some_bind]
      rw [dFind?_dSet_other _ _ _ _ hf]
      cases h : dFind? cfg r.table_name
      · simp [dFind?]
      · simp
  · by_cases hm : dMem cfg r.table_name
    · simp only [hm, Bool.not_true, Bool.false_eq_true, if_false]
      rw [dFind?_dSet_other _ _ _ _ ht, if_neg (by tauto)]
    · simp only [hm, Bool.not_false, if_true]
      rw [dFind?_dSet_other _ _ _ _ ht, dFind?_dSet_other _ _ _ _ ht,
        if_neg (by tauto)]

theorem codesLookup_step (cfg : SystemCodesConfig) (r : CodesRow)
    (tn fn : Str) :
    codesLookup (load_system_codes_config_step cfg r) tn fn =
      if r.table_name = tn ∧ r.field_name = fn
        then some (parseValidCodes r.valid_codes)
      else codesLookup cfg tn fn := by
  simp only [load_system_codes_config_step, codesLookup]
  by_cases ht : r.table_name = tn
  · subst ht
    rw [dFind?_dSet_same]
    have hinner : (dFind? (if !dMem cfg r.table_name
        then dSet cfg r.table_name [] else cfg) r.table_name).getD
          ([] : List (Str × List Str))
        = (dFind? cfg r.table_name).getD [] := by
      by_cases hm : dMem cfg r.table_name
      · simp [hm]
      · simp only [hm, Bool.not_false, if_true, dFind?_dSet_same,
          dFind?_none_of_not_dMem cfg r.table_name hm]
        rfl
    rw [hinner]
    by_cases hf : r.field_name = fn
    · subst hf
      simp [dFind?_dSet_same]
    · rw [if_neg (by tauto)]
      simp only [Option.some_bind]
      rw [dFind?_dSet_other _ _ _ _ hf]
      cases h : dFind? cfg r.table_name
      · simp [dFind?]
      · simp
  · by_cases hm : dMem cfg r.table_name
    · simp only [hm, Bool.not_true, Bool.false_eq_true, if_false]
      rw [dFind?_dSet_other _ _ _ _ ht, if_neg (by tauto)]
    · simp only [hm, Bool.not_false, if_true]
      rw [dFind?_dSet_other _ _ _ _ ht, dFind?_dSet_other _ _ _ _ ht,
        if_neg (by tauto)]

theorem checksLookup_load (rows : List ChecksRow) (cfg : ChecksConfig)
    (tn fn : Str) :
    checksLookup (load_checks_config cfg rows) tn fn =
      match findLastChecksRow rows tn fn with
      | some r => some (rowToFieldChecks r)
      | none => checksLookup cfg tn fn := by
  induction rows generalizing cfg with
  | nil => rfl
  | cons r rest ih =>
    simp only [load_checks_config, List.foldl_cons] at ih ⊢
    rw [ih]
    simp only [findLastChecksRow]
    cases h : findLastChecksRow rest tn fn with
    | some x => rfl
    | none =>
      rw [checksLookup_step]
      by_cases hc : r.table_name = tn ∧ r.field_name = fn
      · simp [hc]
      · simp [hc]

theorem codesLookup_foldl (rows : List CodesRow) (cfg : SystemCodesConfig)
    (tn fn : Str) :
    codesLookup (rows.foldl load_system_codes_config_step cfg) tn fn =
      match findLastCodesRow rows tn fn with
      | some r => some (parseValidCodes r.valid_codes)
      | none => codesLookup cfg tn fn := by
  induction rows generalizing cfg with
  | nil => rfl
  | cons r rest ih =>
    simp only [List.foldl_cons]
    rw [ih]
    simp only [findLastCodesRow]
    cases h : findLastCodesRow rest tn fn with
    | some x => rfl
    | none =>
      rw [codesLookup_step]
      by_cases hc : r.table_name = tn ∧ r.field_name = fn
      · simp [hc]
      · simp [hc]

/-- A checks row with only null/blank enabled, for concrete tests. -/
def c4Row (t f : Str) : ChecksRow :=
  ⟨t, f, "", ['0'], ['1'], ['1'], ['0'], ['0'], ['0'], ['0'], ['0'],
   ['0'], ['0'], ['0'], ['0'], ['0']⟩

/-- C4.  Counterexample to wholesale replacement by
`load_checks_config`: after loading a source containing only table 'b',
the entry for table 'a' from the previous load is still present, with
its old value — the method never clears `checks_config`, so re-loading
merges. -/
theorem C4_reload_counterexample :
    checksLookup (load_checks_config
        (load_checks_config [] [c4Row ['a'] ['x']])
        [c4Row ['b'] ['y']]) ['a'] ['x']
      = some (rowToFieldChecks (c4Row ['a'] ['x']))
    ∧ findLastChecksRow [c4Row ['b'] ['y']] ['a'] ['x'] = none := by
  decide

/-- C4 (amended).  `load_checks_config` merges: after a load, the entry
for (table, field) is the last matching row of the new source if one
exists, and otherwise whatever the previous state held (stale entries
survive).  `load_system_codes_config` by contrast resets its dict
first, so its result never depends on the previous state: the entry is
the last matching row of the new source, or absent. -/
theorem C4_reload_semantics (cfg : ChecksConfig) (rows : List ChecksRow)
    (ccfg : SystemCodesConfig) (crows : List CodesRow) (tn fn : Str) :
    (checksLookup (load_checks_config cfg rows) tn fn =
      match findLastChecksRow rows tn fn with
      | some r => some (rowToFieldChecks r)
      | none => checksLookup cfg tn fn)
    ∧ (codesLookup (load_system_codes_config ccfg crows) tn fn =
      match findLastCodesRow crows tn fn with
      | some r => some (parseValidCodes r.valid_codes)
      | none => none) := by
  refine ⟨checksLookup_load rows cfg tn fn, ?_⟩
  rw [show load_system_codes_config ccfg crows
      = crows.foldl load_system_codes_config_step [] from rfl,
    codesLookup_foldl]
  cases findLastCodesRow crows tn fn <;> rfl

/-! ## ResultsManager: archive versioning (org_1_2907.py lines 1363-1397)
and the store operations (lines 1401-1609) -/

/-- One `query_metadata` row (the columns the versioning logic reads). -/
structure MetaRow where
  table_name : Str
  version : Nat
deriving DecidableEq

/-- `_get_next_version` (lines 1363-1373):
`SELECT MAX(version) FROM query_metadata WHERE table_name LIKE ? || '%'`,
then `(max or 0) + 1`.  `LIKE base || '%'` with no wildcard inside
`base` is exactly an ASCII-case-insensitive prefix test, which
`ciPrefix` implements. -/
def get_next_version (meta : List MetaRow) (base : Str) : Nat :=
  (((meta.filter (fun r => ciPrefix base r.table_name)).map
      (fun r => r.version)).foldl max 0) + 1

/-- `f"{base_table_name}_v{version}"` (lines 1381, 1389, 1396). -/
def versionedName (base : Str) (v : Nat) : Str :=
  base ++ ['_', 'v'] ++ natDecimal v

/-- The metadata effect of one successful store under base name `base`
(`base` is `kind_YYYYMMDD` in the source). -/
def storeMeta (meta : List MetaRow) (base : Str) : List MetaRow :=
  meta ++ [⟨versionedName base (get_next_version meta base),
           get_next_version meta base⟩]

/-- Metadata after a sequence of successful stores from an empty
Results database. -/
def storeSeq (bases : List Str) : List MetaRow :=
  bases.foldl storeMeta []

/-- The versions `_get_next_version` sees for `base`, in insertion
order. -/
def versionsFor (meta : List MetaRow) (base : Str) : List Nat :=
  (meta.filter (fun r => ciPrefix base r.table_name)).map
    (fun r => r.version)

theorem versionsFor_append (m₁ m₂ : List MetaRow) (b : Str) :
    versionsFor (m₁ ++ m₂) b = versionsFor m₁ b ++ versionsFor m₂ b := by
  simp [versionsFor, List.filter_append]

theorem foldl_max_range' (k : Nat) :
    (List.range' 1 k).foldl max 0 = k := by
  induction k with
  | zero => rfl
  | succ k ih =>
    rw [List.range'_concat, List.foldl_append, ih]
    simp [Nat.max_def]
    omega

theorem ciPrefix_versionedName (b b' : Str) (hb : lowerStr b = b)
    (hb' : lowerStr b' = b') (hlen : b.length = b'.length) (v : Nat) :
    ciPrefix b (versionedName b' v) = decide (b = b') := by
  by_cases he : b = b'
  · subst he
    have h1 : ciPrefix b (versionedName b v) = true := by
      rw [ciPrefix, versionedName, List.append_assoc, lowerStr_append]
      exact List.isPrefixOf_iff_prefix.mpr (List.prefix_append _ _)
    rw [h1]; simp
  · have h1 : ciPrefix b (versionedName b' v) = false := by
      by_contra hcp
      rw [Bool.not_eq_false] at hcp
      rw [ciPrefix, versionedName, List.append_assoc, lowerStr_append] at hcp
      have hpre := List.isPrefixOf_iff_prefix.mp hcp
      have hl : (lowerStr b).length = (lowerStr b').length := by
        rw [lowerStr_length, lowerStr_length, hlen]
      have h2 : lowerStr b = lowerStr b' := by
        have h3 := List.prefix_iff_eq_take.mp hpre
        rw [h3, hl, List.take_left]
      exact he (by rw [← hb, h2, hb'])
    rw [h1]
    simp [he]

theorem storeSeq_versions_aux (L : Nat) :
    ∀ (bases : List Str) (meta : List MetaRow) (cnt : Str → Nat),
    (∀ b' ∈ bases, lowerStr b' = b' ∧ b'.length = L) →
    (∀ b, lowerStr b = b → b.length = L →
        versionsFor meta b = List.range' 1 (cnt b)) →
    ∀ b, lowerStr b = b → b.length = L →
      versionsFor (bases.foldl storeMeta meta) b
        = List.range' 1 (cnt b + bases.count b) := by
  intro bases
  induction bases with
  | nil =>
    intro meta cnt _ hmeta b hb hbl
    simpa using hmeta b hb hbl
  | cons b0 rest ih =>
    intro meta cnt hval hmeta b hb hbl
    have hb0 := hval b0 (List.mem_cons_self _ _)
    rw [List.foldl_cons]
    have hstep : ∀ b, lowerStr b = b → b.length = L →
        versionsFor (storeMeta meta b0) b =
          List.range' 1
            ((fun b => if b = b0 then cnt b + 1 else cnt b) b) := by
      intro b hb hbl
      rw [storeMeta, versionsFor_append]
      have hv0 : get_next_version meta b0 = cnt b0 + 1 := by
        rw [get_next_version,
          show (meta.filter (fun r => ciPrefix b0 r.table_name)).map
              (fun r => r.version) = versionsFor meta b0 from rfl,
          hmeta b0 hb0.1 hb0.2, foldl_max_range']
      by_cases heq : b = b0
      · subst heq
        have hone : versionsFor
            [⟨versionedName b (get_next_version meta b),
              get_next_version meta b⟩] b = [get_next_version meta b] := by
          simp [versionsFor, List.filter,
            ciPrefix_versionedName b b hb hb rfl]
        rw [hone, hv0, hmeta b hb hbl]
        show List.range' 1 (cnt b) ++ [cnt b + 1]
          = List.range' 1 (if b = b then cnt b + 1 else cnt b)
        rw [if_pos rfl, List.range'_concat]
        congr 1
        simp [Nat.add_comm]
      · have hzero : versionsFor
            [⟨versionedName b0 (get_next_version meta b0),
              get_next_version meta b0⟩] b = [] := by
          simp [versionsFor, List.filter,
            ciPrefix_versionedName b b0 hb hb0.1 (by rw [hbl, hb0.2]), heq]
        rw [hzero, List.append_nil, hmeta b hb hbl]
        simp [heq]
    have hrec := ih (storeMeta meta b0)
        (fun b => if b = b0 then cnt b + 1 else cnt b)
        (fun b' hm => hval b' (List.mem_cons_of_mem _ hm)) hstep b hb hbl
    rw [hrec, List.count_cons]
    by_cases heq : b = b0
    · simp only [heq, if_pos rfl]
      have : (b0 == b0) = true := by simp
      simp [this]
      omega
    · have : (b0 == b) = false := by
        simp [beq_eq_false_iff_ne]
        exact fun h => heq h.symm
      simp [if_neg heq, this]

/-- C5.  For any sequence of successful archive stores whose base names
are lowercase-fixed and share a common length — as the generated
`query_result_YYYYMMDD` / `failedchecks_YYYYMMDD` /
`passedchecks_YYYYMMDD` names all are (each kind is 12 characters, the
date 8) — the versions recorded for a given base name (= kind + date)
are exactly 1, 2, …, k in store order: strictly increasing from 1, no
duplicates, and scoped to that base+date, so a new date restarts at 1
and versions are not global. -/
theorem C5_archive_versioning (bases : List Str) (L : Nat)
    (hval : ∀ b' ∈ bases, lowerStr b' = b' ∧ b'.length = L)
    (b : Str) (hb : lowerStr b = b) (hbl : b.length = L) :
    versionsFor (storeSeq bases) b = List.range' 1 (bases.count b) := by
  have h := storeSeq_versions_aux L bases [] (fun _ => 0) hval
      (fun b hb hbl => rfl) b hb hbl
  simpa using h

theorem C5_archive_versioning_witness :
    versionsFor (storeSeq
      ["failedchecks_20240101".toList, "failedchecks_20240101".toList,
       "passedchecks_20240101".toList, "failedchecks_20240102".toList])
      "failedchecks_20240101".toList = List.range' 1 2 :=
  C5_archive_versioning
    ["failedchecks_20240101".toList, "failedchecks_20240101".toList,
     "passedchecks_20240101".toList, "failedchecks_20240102".toList] 21
    (by decide) "failedchecks_20240101".toList (by decide) (by decide)

/-! ## Store-operation atomicity (org_1_2907.py lines 1401-1609)

`store_failed_checks_results`, `store_passed_checks_results` and
`store_query_results` share one shape: generate name/version, CREATE
TABLE, executemany INSERT, INSERT metadata, commit; `except
sqlite3.Error` only prints and returns None — there is no rollback.
Under Python's sqlite3 legacy transaction control (the default used
here) an implicit transaction is opened only before DML; the CREATE
TABLE DDL executes in autocommit mode and is durable immediately,
while the row and metadata INSERTs become durable only at `commit()`. -/

/-- Durable and pending state of the Results database. -/
structure DbState where
  tables : List Str
  rowsOf : List (Str × Nat)
  meta : List MetaRow
  pendingRows : List (Str × Nat)
  pendingMeta : List MetaRow
deriving DecidableEq

/-- Where, if anywhere, `sqlite3.Error` is raised during the store. -/
inductive FailPoint where
  | ok | atCreate | atInsert | atMetadata
deriving DecidableEq

/-- One store call with `nrec` records: the common body of the three
store methods.  Returns the new state and the method's return value
(`Some table_name` on success, `None` on the early exit and on every
caught error). -/
def store_op (st : DbState) (base : Str) (nrec : Nat) (fp : FailPoint) :
    DbState × Option Str :=
  if nrec = 0 then (st, none)
  else
    let version := get_next_version (st.meta ++ st.pendingMeta) base
    let name := versionedName base version
    match fp with
    | .atCreate => (st, none)
    | .atInsert => ({ st with tables := st.tables ++ [name] }, none)
    | .atMetadata =>
        ({ st with tables := st.tables ++ [name],
                   pendingRows := st.pendingRows ++ [(name, nrec)] }, none)
    | .ok =>
        ({ tables := st.tables ++ [name],
           rowsOf := st.rowsOf ++ st.pendingRows ++ [(name, nrec)],
           meta := st.meta ++ st.pendingMeta ++ [⟨name, version⟩],
           pendingRows := [], pendingMeta := [] }, some name)

/-- The empty Results database. -/
def emptyDb : DbState := ⟨[], [], [], [], []⟩

/-- C6.  Counterexample to store atomicity: an error at the metadata
INSERT (after CREATE TABLE and the row inserts) leaves the database
changed — the physical table is durably present (DDL autocommits) — yet
no metadata row exists for it, and the caught exception performs no
rollback.  Neither arm of the claimed all-or-nothing disjunction
holds. -/
theorem C6_store_atomicity_counterexample :
    (store_op emptyDb ['f'] 1 .atMetadata).1.tables ≠ []
    ∧ (store_op emptyDb ['f'] 1 .atMetadata).1.meta = []
    ∧ (store_op emptyDb ['f'] 1 .atMetadata).1 ≠ emptyDb := by
  decide

/-- C6 (amended).  From a clean connection state, a store call with
records behaves as follows: on success the table, its rows and the
metadata row are all durable together and the table name is returned;
an error at CREATE leaves the state unchanged; an error at the row
inserts leaves the empty physical table durable with no rows and no
metadata; an error at the metadata insert leaves the physical table
durable with its rows still pending (uncommitted) and no metadata row.
In every error case the method returns None without rolling back. -/
theorem C6_store_atomicity_amended (st : DbState) (base : Str) (nrec : Nat)
    (h : nrec ≠ 0) (hpr : st.pendingRows = []) (hpm : st.pendingMeta = []) :
    (store_op st base nrec .ok =
      ({ tables := st.tables
            ++ [versionedName base (get_next_version st.meta base)],
         rowsOf := st.rowsOf
            ++ [(versionedName base (get_next_version st.meta base), nrec)],
         meta := st.meta
            ++ [⟨versionedName base (get_next_version st.meta base),
                 get_next_version st.meta base⟩],
         pendingRows := [], pendingMeta := [] },
        some (versionedName base (get_next_version st.meta base))))
    ∧ store_op st base nrec .atCreate = (st, none)
    ∧ (store_op st base nrec .atInsert =
        ({ st with tables := st.tables
            ++ [versionedName base (get_next_version st.meta base)] }, none))
    ∧ (store_op st base nrec .atMetadata =
        ({ st with
            tables := st.tables
              ++ [versionedName base (get_next_version st.meta base)],
            pendingRows :=
              [(versionedName base (get_next_version st.meta base), nrec)] },
          none)) := by
  refine ⟨?_, ?_, ?_, ?_⟩ <;> simp [store_op, h, hpr, hpm]

theorem C6_store_atomicity_amended_witness :
    store_op emptyDb ['f'] 1 .atMetadata =
      ({ emptyDb with
          tables := emptyDb.tables
            ++ [versionedName ['f'] (get_next_version emptyDb.meta ['f'])],
          pendingRows :=
            [(versionedName ['f'] (get_next_version emptyDb.meta ['f']), 1)] },
        none) :=
  (C6_store_atomicity_amended emptyDb ['f'] 1 (by decide) rfl rfl).2.2.2
